import Mathlib

/-!
Verification development for the `ai-sdk-provider-claude-code` repository.

The repository bridges the Vercel AI SDK's JSON tool-calling contract to the
Claude Code CLI, whose output is an unbounded, chunk-delimited text stream with
inline tag markup for "thinking" blocks and tool invocations.  The core of the
repository is a streaming tag/event extractor (`StreamingXMLParser`) that
consumes arbitrary string chunks and emits a strictly ordered sequence of
typed events.

The parser source file itself (`streaming-xml-parser.ts`) is not present under
`src/` (only its declarations, re-exports and documentation are), so the parser
is modelled here from the specification: a character-driven state machine over
the four classification modes (plain, thinking, tool-call, tool-parameter) with
an internal look-ahead buffer for tags split across chunk boundaries, a bounded
ambiguity buffer, fatal `MalformedStream` resolution into exactly one
`error` + `finish{reason:"error"}` pair, and non-fatal `UnknownTool` marking.
Exact tag spellings are an implementation choice per the spec; the model uses a
tool-call container tag carrying the tool name (`<tool_call:NAME>` ...
`</tool_call>`), a parameter tag keyed by the parameter name
(`<param:PNAME>` ... `</param>`), and a thinking container tag
(`<thinking>` ... `</thinking>`).

The provider factory (`claudeCode` / `provider` in `src/src/index.ts`) is
embedded directly from the source.
-/

namespace CC

/-- Logical character strings: chunks, tag names, event payloads. -/
abbrev Str := List Char

/-- Modelled from the spec: finish reasons of the `finish{reason, usage}`
event (`"stop" | "tool-calls" | "error"`).  The `usage` metadata is upstream
accounting and is not modelled. -/
inductive Reason
| stop
| toolCalls
| err
deriving DecidableEq

/-- Modelled from the spec: the message payload of an `error` event.  The
spec leaves the message text opaque; the model records the `MalformedStream`
condition that fired. -/
inductive Emsg
| bufLimit
| strayText
| badTag
| unterminated
deriving DecidableEq

/-- Modelled from the spec: the immutable tagged `Event` variant emitted by
the Event Emitter (spec section 3).  `toolCallEnd` carries the `UnknownTool`
marker as its final field (spec section 7: a closed call naming an undeclared
tool is surfaced with a marker rather than aborting the session). -/
inductive Event
| textDelta (t : Str)
| thinkingDelta (t : Str)
| toolCallStart (id : Nat) (name : Str)
| toolCallArgDelta (id : Nat) (t : Str)
| toolCallEnd (id : Nat) (name : Str) (args : List (Str × Str)) (unknownTool : Bool)
| finish (r : Reason)
| error (m : Emsg)
deriving DecidableEq

/-- Modelled from the spec: the Block Classifier state machine's
classification mode (spec section 4.2).  The tool-call and tool-parameter
states carry the open call's id, tool name, and the parameters closed so far,
so that no unreachable "open parameter without open call" configuration
exists. -/
inductive Mode
| plain
| thinking
| tool (id : Nat) (name : Str) (args : List (Str × Str))
| param (id : Nat) (name : Str) (args : List (Str × Str)) (p : Str)
deriving DecidableEq

/-- Modelled from the spec: the per-session mutable `ScanState` (spec
section 3): classification mode, accumulation buffer since the last emitted
boundary (`buf`), the scanner's internal look-ahead buffer for a possibly
still ambiguous tag (`tagBuf`), the monotonically increasing tool-call id
source, whether a tool call was observed, the fatal-failure flag, the number
of logical characters consumed (`pos`), the logical position where `buf`
started (`bufPos`), and the emitted event log.  Each log entry records the
scan position of the content the event derives from. -/
structure ScanState where
  mode : Mode
  buf : Str
  tagBuf : Str
  nextId : Nat
  sawTool : Bool
  failed : Bool
  pos : Nat
  bufPos : Nat
  log : List (Nat × Event)
deriving DecidableEq

/-- Fresh state at parse-session start. -/
def initState : ScanState := ⟨.plain, [], [], 0, false, false, 0, 0, []⟩

/-- Opening tag of a thinking block. -/
def tThinkOpen : Str := ['<', 't', 'h', 'i', 'n', 'k', 'i', 'n', 'g', '>']

/-- Closing tag of a thinking block. -/
def tThinkClose : Str := ['<', '/', 't', 'h', 'i', 'n', 'k', 'i', 'n', 'g', '>']

/-- Leading characters of a tool-call container open tag; the tool name and a
closing angle follow. -/
def tToolOpenPre : Str := ['<', 't', 'o', 'o', 'l', '_', 'c', 'a', 'l', 'l', ':']

/-- Closing tag of a tool-call container. -/
def tToolClose : Str := ['<', '/', 't', 'o', 'o', 'l', '_', 'c', 'a', 'l', 'l', '>']

/-- Leading characters of a parameter open tag; the parameter name and a
closing angle follow. -/
def tParamOpenPre : Str := ['<', 'p', 'a', 'r', 'a', 'm', ':']

/-- Closing tag of a parameter. -/
def tParamClose : Str := ['<', '/', 'p', 'a', 'r', 'a', 'm', '>']

/-- Modelled from the spec: upper bound on look-ahead buffering while a tag is
still ambiguous (spec section 4.1: the scanner fails with `MalformedStream`
rather than buffering unboundedly). -/
def maxTagBuf : Nat := 256

/-- A character allowed inside a tag name token. -/
def nameOk (c : Char) : Bool := !(c == '<') && !(c == '>')

/-- A character that cannot start a tag. -/
def notLt (c : Char) : Bool := !(c == '<')

/-- `leadsTo a b` decides whether `a` is a prefix of `b`. -/
def leadsTo : Str → Str → Bool
| [], _ => true
| _ :: _, [] => false
| a :: as, b :: bs => a == b && leadsTo as bs

/-- Modelled from the spec: the kinds of recognized tag boundaries the Tag
Scanner reports (spec section 4.1 `tag-open(name)` / `tag-close(name)` over
the fixed vocabulary). -/
inductive Hit
| thinkOpen
| thinkClose
| toolOpen (name : Str)
| toolClose
| paramOpen (p : Str)
| paramClose
deriving DecidableEq

/-- Result of scanning the current look-ahead buffer: a complete recognized
tag, still-ambiguous content (`more`), or conclusively not a recognized tag
(`nay`). -/
inductive SRes
| hit (h : Hit)
| more
| nay
deriving DecidableEq

/-- Scan the look-ahead buffer against one fixed tag spelling. -/
def fixedScan (pat : Str) (h : Hit) (t : Str) : SRes :=
  if t == pat then .hit h else if leadsTo t pat then .more else .nay

/-- Scan the look-ahead buffer against a name-carrying tag: a fixed lead-in,
then a name token, then `>`. -/
def taggedScan (pre : Str) (mk : Str → Hit) (t : Str) : SRes :=
  if leadsTo t pre then .more
  else if leadsTo pre t then
    let r := t.drop pre.length
    if r.all nameOk then .more
    else if r.dropLast.all nameOk && (r.getLast? == some '>') then .hit (mk r.dropLast)
    else .nay
  else .nay

/-- Combine the scan results of the (disjoint) recognized patterns of one
mode. -/
def orScan : SRes → SRes → SRes
| .hit h, _ => .hit h
| .more, _ => .more
| .nay, r => r

/-- Modelled from the spec: the mode-dependent recognized tag vocabulary
(spec sections 4.1, 4.2): in plain mode only the thinking and tool-call open
tags; inside thinking only its close tag; inside a tool call only a parameter
open or the container close; inside a parameter only its close tag.  Any
other angle-bracketed text is not a recognized tag. -/
def scan : Mode → Str → SRes
| .plain, t => orScan (fixedScan tThinkOpen .thinkOpen t) (taggedScan tToolOpenPre .toolOpen t)
| .thinking, t => fixedScan tThinkClose .thinkClose t
| .tool _ _ _, t => orScan (fixedScan tToolClose .toolClose t) (taggedScan tParamOpenPre .paramOpen t)
| .param _ _ _ _, t => fixedScan tParamClose .paramClose t

/-- Log entries produced by flushing the plain-text buffer: nothing when it is
empty, one `text-delta` otherwise. -/
def flushLog (bp : Nat) (buf : Str) : List (Nat × Event) :=
  if buf.isEmpty then [] else [(bp, .textDelta buf)]

/-- Log entries produced by flushing a parameter-text buffer as an incremental
`tool-call-argument-delta`. -/
def argLog (bp : Nat) (id : Nat) (buf : Str) : List (Nat × Event) :=
  if buf.isEmpty then [] else [(bp, .toolCallArgDelta id buf)]

/-- Modelled from the spec: fatal `MalformedStream` resolution (spec
section 7): the session emits exactly one `error` event and one
`finish{reason:"error"}`, releases its buffers and stops. -/
def failAt (s : ScanState) (p : Nat) (m : Emsg) : ScanState :=
  { s with failed := true, buf := [], tagBuf := [], pos := p, bufPos := p,
           log := s.log ++ [(p, .error m), (p, .finish .err)] }

/-- Modelled from the spec: the Block Classifier transition taken when the
scanner reports a complete recognized tag `t` (spec section 4.2), with the
tie-break that a buffered-literal flush fires before the tag that follows it.
Tool-call ids are assigned monotonically at `tool-call-start`; a closing
tool-call checks the session's declared tool names and sets the `UnknownTool`
marker when the name is absent (spec section 7). -/
def applyHit (ts : List Str) (s : ScanState) (h : Hit) (t : Str) : ScanState :=
  let p1 := s.pos + 1
  let tagStart := p1 - t.length
  match h, s.mode with
  | .thinkOpen, .plain =>
      { s with mode := .thinking, buf := [], tagBuf := [], pos := p1, bufPos := p1,
               log := s.log ++ flushLog s.bufPos s.buf }
  | .toolOpen nm, .plain =>
      { s with mode := .tool s.nextId nm [], buf := [], tagBuf := [],
               nextId := s.nextId + 1, sawTool := true, pos := p1, bufPos := p1,
               log := s.log ++ flushLog s.bufPos s.buf
                      ++ [(tagStart, .toolCallStart s.nextId nm)] }
  | .thinkClose, .thinking =>
      { s with mode := .plain, buf := [], tagBuf := [], pos := p1, bufPos := p1,
               log := s.log ++ [(s.bufPos, .thinkingDelta s.buf)] }
  | .toolClose, .tool id nm args =>
      { s with mode := .plain, buf := [], tagBuf := [], pos := p1, bufPos := p1,
               log := s.log ++ [(tagStart, .toolCallEnd id nm args (if nm ∈ ts then false else true))] }
  | .paramOpen p, .tool id nm args =>
      { s with mode := .param id nm args p, buf := [], tagBuf := [], pos := p1, bufPos := p1 }
  | .paramClose, .param id nm args p =>
      { s with mode := .tool id nm (args ++ [(p, s.buf)]), buf := [], tagBuf := [],
               pos := p1, bufPos := p1, log := s.log ++ argLog s.bufPos id s.buf }
  | _, _ => failAt s p1 .badTag

/-- The modes whose direct literal content is structural and therefore
malformed: inside a tool-call container but outside any parameter, only
parameter tags and the container close are consistent with the tag nesting. -/
def isToolMode : Mode → Bool
| .tool _ _ _ => true
| _ => false

/-- Modelled from the spec: consume one character of the logical stream
(spec sections 4.1 to 4.3).  Literal characters accumulate in the mode's
buffer; a `<` opens the scanner's look-ahead buffer; ambiguous look-ahead is
re-evaluated as characters arrive and flushed back to literal text when it
conclusively fails to be a recognized tag; over-long ambiguity fails with
`MalformedStream`; a fatal failure freezes the session. -/
def step (ts : List Str) (s : ScanState) (c : Char) : ScanState :=
  if s.failed then s
  else if s.tagBuf.isEmpty then
    if c == '<' then { s with tagBuf := [c], pos := s.pos + 1 }
    else if isToolMode s.mode then failAt s (s.pos + 1) .strayText
    else { s with buf := s.buf ++ [c], pos := s.pos + 1 }
  else
    let t := s.tagBuf ++ [c]
    match scan s.mode t with
    | .hit h => applyHit ts s h t
    | .more =>
        if maxTagBuf < t.length then failAt s (s.pos + 1) .bufLimit
        else { s with tagBuf := t, pos := s.pos + 1 }
    | .nay =>
        if isToolMode s.mode then failAt s (s.pos + 1) .badTag
        else if c == '<' then { s with buf := s.buf ++ s.tagBuf, tagBuf := [c], pos := s.pos + 1 }
        else { s with buf := s.buf ++ t, tagBuf := [], pos := s.pos + 1 }

/-- Modelled from the spec: end of stream (spec section 4.3).  A clean end in
plain mode flushes the remaining buffered literal text (an incomplete
ambiguous tag never became a recognized tag, so it is literal) and emits
`finish{reason: "stop" | "tool-calls"}`; ending in any other mode is an
unterminated block and resolves into the single `error` + `finish{"error"}`
terminal pair. -/
def endSession (s : ScanState) : ScanState :=
  if s.failed then s
  else match s.mode with
  | .plain =>
      { s with buf := [], tagBuf := [], bufPos := s.pos,
               log := s.log ++ flushLog s.bufPos (s.buf ++ s.tagBuf)
                      ++ [(s.pos, .finish (if s.sawTool then .toolCalls else .stop))] }
  | _ => { s with failed := true, buf := [], tagBuf := [], bufPos := s.pos,
                  log := s.log ++ [(s.pos, .error .unterminated), (s.pos, .finish .err)] }

/-- Feed one chunk: the parser advances strictly character by character, so a
chunk is consumed by folding `step` over it; no chunk boundary carries
semantic meaning. -/
def feed (ts : List Str) (s : ScanState) (chunk : Str) : ScanState :=
  chunk.foldl (step ts) s

/-- Feed a whole chunk sequence from a fresh session. -/
def feedAll (ts : List Str) (chunks : List Str) : ScanState :=
  chunks.foldl (feed ts) initState

/-- Run a full parse session on a chunk sequence: feed every chunk, then end
the stream. -/
def runChunks (ts : List Str) (chunks : List Str) : ScanState :=
  endSession (feedAll ts chunks)

/-- Run a full parse session on an unsplit logical input. -/
def runStr (ts : List Str) (input : Str) : ScanState :=
  endSession (feed ts initState input)

/-- The emitted event sequence of a session state, in emission order. -/
def events (s : ScanState) : List Event := s.log.map Prod.snd

/-- The rendered textual form of one parameter block. -/
def renderParam (p v : Str) : Str := tParamOpenPre ++ p ++ ['>'] ++ v ++ tParamClose

/-- The rendered textual form of a closed call's parameter blocks. -/
def renderArgs (args : List (Str × Str)) : Str :=
  (args.map (fun pv => renderParam pv.1 pv.2)).flatten

/-- The rendered textual form of a complete tool-call block. -/
def renderToolBlock (nm : Str) (args : List (Str × Str)) : Str :=
  tToolOpenPre ++ nm ++ ['>'] ++ renderArgs args ++ tToolClose

/-- Reconstruction of one event's originating text: delta payloads with the
recognized tag markers re-inserted at their original positions.  Text deltas
are bare payload; a thinking delta re-inserts the thinking container tags; a
closed tool call re-inserts the tool-call and parameter tags around the
argument text; bookkeeping events contribute nothing. -/
def renderEvent : Event → Str
| .textDelta t => t
| .thinkingDelta t => tThinkOpen ++ t ++ tThinkClose
| .toolCallEnd _ nm args _ => renderToolBlock nm args
| _ => []

/-- Reconstruction of the original logical stream from a session's emitted
events. -/
def renderEvents (s : ScanState) : Str := ((events s).map renderEvent).flatten

/-- The not-yet-emitted content a session state still holds, rendered back to
input text; used to state the round-trip invariant. -/
def pending (s : ScanState) : Str :=
  match s.mode with
  | .plain => s.buf ++ s.tagBuf
  | .thinking => tThinkOpen ++ s.buf ++ s.tagBuf
  | .tool _ nm args => tToolOpenPre ++ nm ++ ['>'] ++ renderArgs args ++ s.tagBuf
  | .param _ nm args p =>
      tToolOpenPre ++ nm ++ ['>'] ++ renderArgs args
        ++ tParamOpenPre ++ p ++ ['>'] ++ s.buf ++ s.tagBuf

/-- The id of the currently open tool call, if any. -/
def mOpen : Mode → Option Nat
| .tool id _ _ => some id
| .param id _ _ _ => some id
| _ => none

/-- Does an event reference the given tool-call id? -/
def refs (id : Nat) : Event → Bool
| .toolCallStart i _ => i == id
| .toolCallArgDelta i _ => i == id
| .toolCallEnd i _ _ _ => i == id
| _ => false

/-- Is the event the `tool-call-start` of the given id? -/
def isStart (id : Nat) : Event → Bool
| .toolCallStart i _ => i == id
| _ => false

/-- Is the event a `tool-call-argument-delta` of the given id? -/
def isDelta (id : Nat) : Event → Bool
| .toolCallArgDelta i _ => i == id
| _ => false

/-- Is the event the `tool-call-end` of the given id? -/
def isEnd (id : Nat) : Event → Bool
| .toolCallEnd i _ _ _ => i == id
| _ => false

/-- Is the event neither of the two terminal kinds? -/
def notTerm : Event → Bool
| .finish _ => false
| .error _ => false
| _ => true

/-! ## The provider factory, embedded from `src/src/index.ts` -/

/-- `ClaudeCodeModelId` from `src/src/index.ts`. -/
inductive ClaudeCodeModelId
| opus
| sonnet
| haiku
deriving DecidableEq

/-- `ClaudeCodeSettings` from `src/src/index.ts`: the single optional
`maxThinkingTokens` field.  TypeScript numbers are modelled as integers,
which covers the zero and negative values the claims quantify over. -/
structure ClaudeCodeSettings where
  maxThinkingTokens : Option Int
deriving DecidableEq

/-- The configuration object `{ modelId, ...settings }` that `claudeCode`
passes to the `ClaudeCodeLanguageModel` constructor. -/
structure ClaudeCodeLanguageModelConfig where
  modelId : ClaudeCodeModelId
  maxThinkingTokens : Option Int
deriving DecidableEq

/-- Modelled from the spec: the class body of `ClaudeCodeLanguageModel`
(`claude-code-language-model.ts`) is not under `src/`; the spec treats it as
thin configuration glue outside the core.  Its constructor is modelled as
storing the configuration object it receives. -/
structure ClaudeCodeLanguageModel where
  config : ClaudeCodeLanguageModelConfig
deriving DecidableEq

/-- The body of `claudeCode` after JavaScript default-parameter resolution:
`new ClaudeCodeLanguageModel({ modelId, ...settings })`.  Spreading an absent
settings object contributes no fields. -/
def claudeCodeImpl (modelId : ClaudeCodeModelId) (settings : Option ClaudeCodeSettings) :
    ClaudeCodeLanguageModel :=
  ⟨⟨modelId, match settings with
             | none => none
             | some st => st.maxThinkingTokens⟩⟩

/-- `claudeCode` from `src/src/index.ts`.  The first parameter models the
TypeScript optional parameter `modelId: ClaudeCodeModelId = 'sonnet'`: calling
with the argument omitted is calling with `none`. -/
def claudeCode (modelId : Option ClaudeCodeModelId) (settings : Option ClaudeCodeSettings) :
    ClaudeCodeLanguageModel :=
  claudeCodeImpl (modelId.getD .sonnet) settings

/-- `provider` from `src/src/index.ts`: `export const provider = claudeCode`. -/
def provider : Option ClaudeCodeModelId → Option ClaudeCodeSettings → ClaudeCodeLanguageModel :=
  claudeCode

/-! ## Helper lemmas -/

/-- Folding the per-character step over a joined chunk list equals folding it
chunk by chunk. -/
theorem feed_join (ts : List Str) : ∀ (chunks : List Str) (s : ScanState),
    chunks.foldl (feed ts) s = feed ts s chunks.flatten := by
  intro chunks
  induction chunks with
  | nil => intro s; simp [feed]
  | cons c l ih =>
      intro s
      simp only [List.foldl_cons, List.flatten_cons, feed, List.foldl_append]
      exact ih (feed ts s c)

/-- Rendering of a raw event log back to input text. -/
def renderLog (l : List (Nat × Event)) : Str := ((l.map Prod.snd).map renderEvent).flatten

theorem renderEvents_eq (s : ScanState) : renderEvents s = renderLog s.log := rfl

theorem renderLog_append (a b : List (Nat × Event)) :
    renderLog (a ++ b) = renderLog a ++ renderLog b := by
  simp [renderLog]

theorem renderLog_flushLog (bp : Nat) (u : Str) : renderLog (flushLog bp u) = u := by
  by_cases h : u.isEmpty
  · simp [flushLog, h, renderLog]
    simpa using (List.isEmpty_iff.mp h).symm
  · simp [flushLog, h, renderLog, renderEvent]

theorem renderLog_argLog (bp id : Nat) (u : Str) : renderLog (argLog bp id u) = [] := by
  by_cases h : u.isEmpty
  · simp [argLog, h, renderLog]
  · simp [argLog, h, renderLog, renderEvent]

/-- `leadsTo` decides list prefixing. -/
theorem leadsTo_iff (a : Str) : ∀ b : Str, leadsTo a b = true ↔ ∃ r, b = a ++ r := by
  induction a with
  | nil =>
      intro b
      simp [leadsTo]
  | cons x xs ih =>
      intro b
      cases b with
      | nil => simp [leadsTo]
      | cons y ys =>
          simp only [leadsTo, Bool.and_eq_true, beq_iff_eq, ih, List.cons_append,
            List.cons.injEq]
          constructor
          · rintro ⟨rfl, r, rfl⟩
            exact ⟨r, rfl, rfl⟩
          · rintro ⟨r, rfl, rfl⟩
            exact ⟨rfl, r, rfl⟩

theorem leadsTo_self_append (a b : Str) : leadsTo a (a ++ b) = true :=
  (leadsTo_iff a (a ++ b)).mpr ⟨b, rfl⟩

theorem leadsTo_append_self (a b : Str) : leadsTo (a ++ b) a = true ↔ b = [] := by
  rw [leadsTo_iff]
  constructor
  · rintro ⟨r, hr⟩
    have h2 : a ++ ([] : Str) = a ++ (b ++ r) := by simpa using hr
    have h3 : ([] : Str) = b ++ r := List.append_cancel_left h2
    exact (List.append_eq_nil.mp h3.symm).1
  · rintro rfl
    exact ⟨[], by simp⟩

theorem eq_dropLast_concat_of_getLast? {α : Type} (l : List α) (a : α)
    (h : l.getLast? = some a) : l = l.dropLast ++ [a] := by
  rcases List.eq_nil_or_concat l with rfl | ⟨m, b, rfl⟩
  · exact Option.noConfusion h
  · rw [List.concat_eq_append] at h ⊢
    have hgl : (m ++ [b]).getLast? = some b := List.getLast?_concat m
    rw [hgl, Option.some.injEq] at h
    subst h
    simp

/-- Inversion: a fixed-pattern scan reports a hit only on exactly its
pattern. -/
theorem fixedScan_hit {pat t : Str} {h h2 : Hit} (hs : fixedScan pat h t = .hit h2) :
    h2 = h ∧ t = pat := by
  unfold fixedScan at hs
  by_cases he : t == pat
  · refine ⟨?_, by simpa using he⟩
    simp [he] at hs
    exact hs.symm
  · simp [he] at hs
    by_cases hl : leadsTo t pat <;> simp [hl] at hs

/-- Inversion: a name-carrying scan reports a hit only on the lead-in, a name
of name-token characters, and a closing angle. -/
theorem taggedScan_hit {pre t : Str} {mk : Str → Hit} {h2 : Hit}
    (hs : taggedScan pre mk t = .hit h2) :
    ∃ nm, h2 = mk nm ∧ nm.all nameOk = true ∧ t = pre ++ nm ++ ['>'] := by
  unfold taggedScan at hs
  by_cases h1 : leadsTo t pre
  · simp [h1] at hs
  · simp only [h1, Bool.false_eq_true, if_false] at hs
    by_cases h2p : leadsTo pre t
    · simp only [h2p, if_true] at hs
      obtain ⟨q, rfl⟩ := (leadsTo_iff pre t).mp h2p
      rw [List.drop_left] at hs
      by_cases h3 : q.all nameOk
      · simp [h3] at hs
      · simp only [h3, Bool.false_eq_true, if_false] at hs
        by_cases h4 : q.dropLast.all nameOk && (q.getLast? == some '>')
        · simp only [h4, if_true, SRes.hit.injEq] at hs
          simp only [Bool.and_eq_true, beq_iff_eq] at h4
          refine ⟨q.dropLast, hs.symm, h4.1, ?_⟩
          rw [List.append_assoc]
          congr 1
          exact eq_dropLast_concat_of_getLast? q '>' h4.2
        · simp [h4] at hs
    · simp [h2p] at hs

theorem orScan_hit {r1 r2 : SRes} {h : Hit} (hs : orScan r1 r2 = .hit h) :
    r1 = .hit h ∨ r2 = .hit h := by
  cases r1 with
  | hit h1 => left; simpa [orScan] using hs
  | more => simp [orScan] at hs
  | nay => right; simpa [orScan] using hs

/-- Inversion of the plain-mode scan. -/
theorem scan_plain_hit {t : Str} {h : Hit} (hs : scan .plain t = .hit h) :
    (h = .thinkOpen ∧ t = tThinkOpen)
      ∨ ∃ nm, h = .toolOpen nm ∧ nm.all nameOk = true ∧ t = tToolOpenPre ++ nm ++ ['>'] := by
  rcases orScan_hit hs with h1 | h1
  · exact Or.inl (fixedScan_hit h1)
  · exact Or.inr (taggedScan_hit h1)

/-- Inversion of the thinking-mode scan. -/
theorem scan_thinking_hit {t : Str} {h : Hit} (hs : scan .thinking t = .hit h) :
    h = .thinkClose ∧ t = tThinkClose :=
  fixedScan_hit hs

/-- Inversion of the tool-call-mode scan. -/
theorem scan_tool_hit {id : Nat} {nm : Str} {args : List (Str × Str)} {t : Str} {h : Hit}
    (hs : scan (.tool id nm args) t = .hit h) :
    (h = .toolClose ∧ t = tToolClose)
      ∨ ∃ p, h = .paramOpen p ∧ p.all nameOk = true ∧ t = tParamOpenPre ++ p ++ ['>'] := by
  rcases orScan_hit hs with h1 | h1
  · exact Or.inl (fixedScan_hit h1)
  · exact Or.inr (taggedScan_hit h1)

/-- Inversion of the parameter-mode scan. -/
theorem scan_param_hit {id : Nat} {nm p0 : Str} {args : List (Str × Str)} {t : Str} {h : Hit}
    (hs : scan (.param id nm args p0) t = .hit h) :
    h = .paramClose ∧ t = tParamClose :=
  fixedScan_hit hs

/-! ## Step characterization lemmas -/

theorem step_frozen (ts : List Str) (s : ScanState) (c : Char) (h : s.failed = true) :
    step ts s c = s := by
  simp [step, h]

theorem step_tag_start (ts : List Str) (s : ScanState) (c : Char)
    (h0 : s.failed = false) (h1 : s.tagBuf = []) (hc : c = '<') :
    step ts s c = { s with tagBuf := [c], pos := s.pos + 1 } := by
  subst hc
  simp [step, h0, h1]

theorem step_lit (ts : List Str) (s : ScanState) (c : Char)
    (h0 : s.failed = false) (h1 : s.tagBuf = []) (hc : (c == '<') = false)
    (hm : isToolMode s.mode = false) :
    step ts s c = { s with buf := s.buf ++ [c], pos := s.pos + 1 } := by
  simp [step, h0, h1, hc, hm]

theorem step_lit_tool (ts : List Str) (s : ScanState) (c : Char)
    (h0 : s.failed = false) (h1 : s.tagBuf = []) (hc : (c == '<') = false)
    (hm : isToolMode s.mode = true) :
    step ts s c = failAt s (s.pos + 1) .strayText := by
  simp [step, h0, h1, hc, hm]

theorem step_hit (ts : List Str) (s : ScanState) (c : Char) (h : Hit)
    (h0 : s.failed = false) (h1 : s.tagBuf.isEmpty = false)
    (hsc : scan s.mode (s.tagBuf ++ [c]) = .hit h) :
    step ts s c = applyHit ts s h (s.tagBuf ++ [c]) := by
  simp [step, h0, h1, hsc]

theorem step_more (ts : List Str) (s : ScanState) (c : Char)
    (h0 : s.failed = false) (h1 : s.tagBuf.isEmpty = false)
    (hsc : scan s.mode (s.tagBuf ++ [c]) = .more)
    (hlen : ¬ maxTagBuf < (s.tagBuf ++ [c]).length) :
    step ts s c = { s with tagBuf := s.tagBuf ++ [c], pos := s.pos + 1 } := by
  have hlen2 : ¬ maxTagBuf < s.tagBuf.length + 1 := by simpa using hlen
  simp [step, h0, h1, hsc, hlen2]

theorem step_more_limit (ts : List Str) (s : ScanState) (c : Char)
    (h0 : s.failed = false) (h1 : s.tagBuf.isEmpty = false)
    (hsc : scan s.mode (s.tagBuf ++ [c]) = .more)
    (hlen : maxTagBuf < (s.tagBuf ++ [c]).length) :
    step ts s c = failAt s (s.pos + 1) .bufLimit := by
  have hlen2 : maxTagBuf < s.tagBuf.length + 1 := by simpa using hlen
  simp [step, h0, h1, hsc, hlen2]

theorem step_nay_tool (ts : List Str) (s : ScanState) (c : Char)
    (h0 : s.failed = false) (h1 : s.tagBuf.isEmpty = false)
    (hsc : scan s.mode (s.tagBuf ++ [c]) = .nay) (hm : isToolMode s.mode = true) :
    step ts s c = failAt s (s.pos + 1) .badTag := by
  simp [step, h0, h1, hsc, hm]

theorem step_nay_lt (ts : List Str) (s : ScanState) (c : Char)
    (h0 : s.failed = false) (h1 : s.tagBuf.isEmpty = false)
    (hsc : scan s.mode (s.tagBuf ++ [c]) = .nay) (hm : isToolMode s.mode = false)
    (hc : c = '<') :
    step ts s c = { s with buf := s.buf ++ s.tagBuf, tagBuf := [c], pos := s.pos + 1 } := by
  subst hc
  simp [step, h0, h1, hsc, hm]

theorem step_nay (ts : List Str) (s : ScanState) (c : Char)
    (h0 : s.failed = false) (h1 : s.tagBuf.isEmpty = false)
    (hsc : scan s.mode (s.tagBuf ++ [c]) = .nay) (hm : isToolMode s.mode = false)
    (hc : (c == '<') = false) :
    step ts s c
      = { s with buf := s.buf ++ (s.tagBuf ++ [c]), tagBuf := [], pos := s.pos + 1 } := by
  simp [step, h0, h1, hsc, hm, hc]

theorem step_failed_of (ts : List Str) (s : ScanState) (c : Char)
    (hf : (step ts s c).failed = false) : s.failed = false := by
  cases hsf : s.failed with
  | false => rfl
  | true =>
      rw [step_frozen ts s c hsf, hsf] at hf
      exact hf

theorem feed_cons (ts : List Str) (s : ScanState) (c : Char) (rest : Str) :
    feed ts s (c :: rest) = feed ts (step ts s c) rest := by
  simp [feed]

theorem feed_nil (ts : List Str) (s : ScanState) : feed ts s [] = s := rfl

theorem feed_failed_of (ts : List Str) :
    ∀ (inp : Str) (s : ScanState), (feed ts s inp).failed = false → s.failed = false := by
  intro inp
  induction inp with
  | nil => intro s hf; exact hf
  | cons c rest ih =>
      intro s hf
      rw [feed_cons] at hf
      exact step_failed_of ts s c (ih (step ts s c) hf)

/-! ## Round-trip invariant -/

theorem renderLog_single (p : Nat) (e : Event) : renderLog [(p, e)] = renderEvent e := by
  simp [renderLog]

theorem renderArgs_concat (args : List (Str × Str)) (p v : Str) :
    renderArgs (args ++ [(p, v)]) = renderArgs args ++ renderParam p v := by
  simp [renderArgs]

/-- One consumed character extends the reconstructed text by exactly that
character, as long as the step does not fail. -/
theorem step_render (ts : List Str) (s : ScanState) (c : Char)
    (hf : (step ts s c).failed = false) :
    renderLog (step ts s c).log ++ pending (step ts s c)
      = (renderLog s.log ++ pending s) ++ [c] := by
  have h0 : s.failed = false := step_failed_of ts s c hf
  by_cases h1 : s.tagBuf = []
  · by_cases h2 : c = '<'
    · rw [step_tag_start ts s c h0 h1 h2]
      cases hm : s.mode <;> simp [pending, hm, h1, h2, List.append_assoc]
    · have h2b : (c == '<') = false := by simp [h2]
      cases hm : s.mode with
      | tool id nm args =>
          rw [step_lit_tool ts s c h0 h1 h2b (by simp [isToolMode, hm])] at hf
          simp [failAt] at hf
      | plain =>
          rw [step_lit ts s c h0 h1 h2b (by simp [isToolMode, hm])]
          simp [pending, hm, h1, List.append_assoc]
      | thinking =>
          rw [step_lit ts s c h0 h1 h2b (by simp [isToolMode, hm])]
          simp [pending, hm, h1, List.append_assoc]
      | param id nm args p =>
          rw [step_lit ts s c h0 h1 h2b (by simp [isToolMode, hm])]
          simp [pending, hm, h1, List.append_assoc]
  · have h1b : s.tagBuf.isEmpty = false := by
      cases htb : s.tagBuf with
      | nil => exact absurd htb h1
      | cons a as => rfl
    cases hsc : scan s.mode (s.tagBuf ++ [c]) with
    | more =>
        by_cases hlen : maxTagBuf < (s.tagBuf ++ [c]).length
        · rw [step_more_limit ts s c h0 h1b hsc hlen] at hf
          simp [failAt] at hf
        · rw [step_more ts s c h0 h1b hsc hlen]
          cases hm : s.mode <;> simp [pending, hm, List.append_assoc]
    | nay =>
        cases hm : s.mode with
        | tool id nm args =>
            rw [step_nay_tool ts s c h0 h1b hsc (by simp [isToolMode, hm])] at hf
            simp [failAt] at hf
        | plain =>
            by_cases h2 : c = '<'
            · rw [step_nay_lt ts s c h0 h1b hsc (by simp [isToolMode, hm]) h2]
              simp [pending, hm, h2, List.append_assoc]
            · have h2b : (c == '<') = false := by simp [h2]
              rw [step_nay ts s c h0 h1b hsc (by simp [isToolMode, hm]) h2b]
              simp [pending, hm, List.append_assoc]
        | thinking =>
            by_cases h2 : c = '<'
            · rw [step_nay_lt ts s c h0 h1b hsc (by simp [isToolMode, hm]) h2]
              simp [pending, hm, h2, List.append_assoc]
            · have h2b : (c == '<') = false := by simp [h2]
              rw [step_nay ts s c h0 h1b hsc (by simp [isToolMode, hm]) h2b]
              simp [pending, hm, List.append_assoc]
        | param id nm args p =>
            by_cases h2 : c = '<'
            · rw [step_nay_lt ts s c h0 h1b hsc (by simp [isToolMode, hm]) h2]
              simp [pending, hm, h2, List.append_assoc]
            · have h2b : (c == '<') = false := by simp [h2]
              rw [step_nay ts s c h0 h1b hsc (by simp [isToolMode, hm]) h2b]
              simp [pending, hm, List.append_assoc]
    | hit h =>
        rw [step_hit ts s c h h0 h1b hsc]
        cases hm : s.mode with
        | plain =>
            rw [hm] at hsc
            rcases scan_plain_hit hsc with ⟨rfl, hteq⟩ | ⟨nm2, rfl, hnm, hteq⟩
            · simp [applyHit, hm, pending, renderLog_append, renderLog_flushLog,
                ← hteq, List.append_assoc]
            · simp [applyHit, hm, pending, renderLog_append, renderLog_flushLog,
                renderLog_single, renderEvent, renderArgs, ← hteq, List.append_assoc]
        | thinking =>
            rw [hm] at hsc
            obtain ⟨rfl, hteq⟩ := scan_thinking_hit hsc
            simp [applyHit, hm, pending, renderLog_append, renderLog_single,
              renderEvent, ← hteq, List.append_assoc]
        | tool id nm args =>
            rw [hm] at hsc
            rcases scan_tool_hit hsc with ⟨rfl, hteq⟩ | ⟨p2, rfl, hp, hteq⟩
            · simp [applyHit, hm, pending, renderLog_append, renderLog_single,
                renderEvent, renderToolBlock, ← hteq, List.append_assoc]
            · simp [applyHit, hm, pending, ← hteq, List.append_assoc]
        | param id nm args p =>
            rw [hm] at hsc
            obtain ⟨rfl, hteq⟩ := scan_param_hit hsc
            simp [applyHit, hm, pending, renderLog_append, renderLog_argLog,
              renderArgs_concat, renderParam, ← hteq, List.append_assoc]

/-- Feeding input extends the reconstructed text by exactly that input, as
long as the session has not failed. -/
theorem feed_render (ts : List Str) :
    ∀ (inp : Str) (s : ScanState), (feed ts s inp).failed = false →
      renderLog (feed ts s inp).log ++ pending (feed ts s inp)
        = (renderLog s.log ++ pending s) ++ inp := by
  intro inp
  induction inp with
  | nil => intro s _; simp [feed_nil]
  | cons c rest ih =>
      intro s hf
      rw [feed_cons] at hf ⊢
      have hstep : (step ts s c).failed = false := feed_failed_of ts rest (step ts s c) hf
      rw [ih (step ts s c) hf, step_render ts s c hstep]
      simp [List.append_assoc]

theorem endSession_frozen (s : ScanState) (h : s.failed = true) : endSession s = s := by
  simp [endSession, h]

theorem endSession_failed_of (s : ScanState) (h : (endSession s).failed = false) :
    s.failed = false ∧ s.mode = .plain := by
  cases hsf : s.failed with
  | true =>
      rw [endSession_frozen s hsf, hsf] at h
      exact Bool.noConfusion h
  | false =>
      cases hm : s.mode with
      | plain => exact ⟨rfl, rfl⟩
      | thinking => rw [endSession] at h; simp [hsf, hm] at h
      | tool id nm args => rw [endSession] at h; simp [hsf, hm] at h
      | param id nm args p => rw [endSession] at h; simp [hsf, hm] at h

theorem endSession_plain (s : ScanState) (h0 : s.failed = false) (hm : s.mode = .plain) :
    endSession s
      = { s with buf := [], tagBuf := [], bufPos := s.pos,
                 log := s.log ++ flushLog s.bufPos (s.buf ++ s.tagBuf)
                        ++ [(s.pos, .finish (if s.sawTool then .toolCalls else .stop))] } := by
  rw [endSession]
  simp [h0, hm]

/-! ## Emission-order invariant -/

/-- Comparison of log entries by the scan position of their originating
content. -/
def posLe (a b : Nat × Event) : Prop := a.1 ≤ b.1

/-- Position bookkeeping invariant: while the session is healthy the pending
buffers sit exactly between `bufPos` and `pos`; every emitted event's
recorded position is at most `bufPos`; and the log is sorted by position. -/
def posInv (s : ScanState) : Prop :=
  (s.failed = false → s.bufPos + s.buf.length + s.tagBuf.length = s.pos)
  ∧ s.bufPos ≤ s.pos
  ∧ (∀ pe ∈ s.log, pe.1 ≤ s.bufPos)
  ∧ s.log.Pairwise posLe

theorem posInv_init : posInv initState := by
  refine ⟨fun _ => rfl, le_refl 0, ?_, List.Pairwise.nil⟩
  intro pe hpe
  exact absurd hpe (List.not_mem_nil pe)

theorem pairwise_append_bound {l new : List (Nat × Event)} {b : Nat}
    (hl : l.Pairwise posLe) (hb : ∀ pe ∈ l, pe.1 ≤ b)
    (hnew : new.Pairwise posLe) (hge : ∀ pe ∈ new, b ≤ pe.1) :
    (l ++ new).Pairwise posLe := by
  rw [List.pairwise_append]
  exact ⟨hl, hnew, fun a ha b2 hb2 => le_trans (hb a ha) (hge b2 hb2)⟩

theorem posInv_failAt (s : ScanState) (m : Emsg) (h : posInv s) :
    posInv (failAt s (s.pos + 1) m) := by
  obtain ⟨h1, h2, h3, h4⟩ := h
  refine ⟨?_, ?_, ?_, ?_⟩
  · intro hf; simp [failAt] at hf
  · simp [failAt]
  · intro pe hpe
    simp only [failAt, List.mem_append, List.mem_cons, List.not_mem_nil, or_false] at hpe
    rcases hpe with hpe | hpe | hpe
    · exact le_trans (h3 pe hpe) (by simp [failAt]; omega)
    · subst hpe; simp [failAt]
    · subst hpe; simp [failAt]
  · simp only [failAt]
    refine pairwise_append_bound h4 h3 ?_ ?_
    · refine List.Pairwise.cons ?_ ?_
      · intro b hb
        simp only [List.mem_cons, List.not_mem_nil, or_false] at hb
        subst hb
        exact le_refl _
      · exact List.pairwise_singleton _ _
    · intro pe hpe
      simp only [List.mem_cons, List.not_mem_nil, or_false] at hpe
      rcases hpe with hpe | hpe <;> (subst hpe; simp; omega)

theorem flushLog_mem {bp : Nat} {u : Str} {pe : Nat × Event} (h : pe ∈ flushLog bp u) :
    pe.1 = bp := by
  unfold flushLog at h
  by_cases he : u.isEmpty
  · simp [he] at h
  · simp only [he, Bool.false_eq_true, if_false, List.mem_cons, List.not_mem_nil, or_false] at h
    rw [h]

theorem argLog_mem {bp id : Nat} {u : Str} {pe : Nat × Event} (h : pe ∈ argLog bp id u) :
    pe.1 = bp := by
  unfold argLog at h
  by_cases he : u.isEmpty
  · simp [he] at h
  · simp only [he, Bool.false_eq_true, if_false, List.mem_cons, List.not_mem_nil, or_false] at h
    rw [h]

theorem flushLog_pairwise (bp : Nat) (u : Str) : (flushLog bp u).Pairwise posLe := by
  unfold flushLog
  by_cases he : u.isEmpty <;> simp [he]

theorem argLog_pairwise (bp id : Nat) (u : Str) : (argLog bp id u).Pairwise posLe := by
  unfold argLog
  by_cases he : u.isEmpty <;> simp [he]

/-- Universal preservation helper for `posInv`: the new state's log is the old
one plus a batch of entries positioned between the old `bufPos` and the new
one, and the buffer geometry is re-established. -/
theorem posInv_emit (s s' : ScanState) (new : List (Nat × Event)) (h : posInv s)
    (hlog : s'.log = s.log ++ new)
    (hnew_sorted : new.Pairwise posLe)
    (hnew_ge : ∀ pe ∈ new, s.bufPos ≤ pe.1)
    (hnew_le : ∀ pe ∈ new, pe.1 ≤ s'.bufPos)
    (hbp : s.bufPos ≤ s'.bufPos)
    (hgeom : s'.failed = false → s'.bufPos + s'.buf.length + s'.tagBuf.length = s'.pos)
    (hbp2 : s'.bufPos ≤ s'.pos) : posInv s' := by
  obtain ⟨h1, h2, h3, h4⟩ := h
  refine ⟨hgeom, hbp2, ?_, ?_⟩
  · intro pe hpe
    rw [hlog] at hpe
    rcases List.mem_append.mp hpe with hpe | hpe
    · exact le_trans (h3 pe hpe) hbp
    · exact hnew_le pe hpe
  · rw [hlog]
    exact pairwise_append_bound h4 h3 hnew_sorted hnew_ge

/-- `posInv` is preserved by every parser step. -/
theorem posInv_step (ts : List Str) (s : ScanState) (c : Char) (h : posInv s) :
    posInv (step ts s c) := by
  by_cases h0 : s.failed = true
  · rw [step_frozen ts s c h0]; exact h
  · have h0f : s.failed = false := by
      cases hx : s.failed with
      | false => rfl
      | true => exact absurd hx h0
    have hg := h.1 h0f
    have h2 := h.2.1
    by_cases ht : s.tagBuf = []
    · by_cases h2c : c = '<'
      · rw [step_tag_start ts s c h0f ht h2c]
        refine posInv_emit s _ [] h (by simp) (by simp) (by simp) (by simp) (le_refl _) ?_ ?_
        · intro _
          simp only [ht, List.length_nil] at hg ⊢
          simp
          omega
        · simp; omega
      · have h2b : (c == '<') = false := by simp [h2c]
        by_cases hm : isToolMode s.mode = true
        · rw [step_lit_tool ts s c h0f ht h2b hm]
          exact posInv_failAt s _ h
        · have hmf : isToolMode s.mode = false := by
            cases hx : isToolMode s.mode with
            | false => rfl
            | true => exact absurd hx hm
          rw [step_lit ts s c h0f ht h2b hmf]
          refine posInv_emit s _ [] h (by simp) (by simp) (by simp) (by simp) (le_refl _) ?_ ?_
          · intro _; simp [ht] at hg ⊢; omega
          · simp; omega
    · have h1b : s.tagBuf.isEmpty = false := by
        cases htb : s.tagBuf with
        | nil => exact absurd htb ht
        | cons a as => rfl
      cases hsc : scan s.mode (s.tagBuf ++ [c]) with
      | more =>
          by_cases hlen : maxTagBuf < (s.tagBuf ++ [c]).length
          · rw [step_more_limit ts s c h0f h1b hsc hlen]
            exact posInv_failAt s _ h
          · rw [step_more ts s c h0f h1b hsc hlen]
            refine posInv_emit s _ [] h (by simp) (by simp) (by simp) (by simp) (le_refl _) ?_ ?_
            · intro _; simp at hg ⊢; omega
            · simp; omega
      | nay =>
          by_cases hm : isToolMode s.mode = true
          · rw [step_nay_tool ts s c h0f h1b hsc hm]
            exact posInv_failAt s _ h
          · have hmf : isToolMode s.mode = false := by
              cases hx : isToolMode s.mode with
              | false => rfl
              | true => exact absurd hx hm
            by_cases h2c : c = '<'
            · rw [step_nay_lt ts s c h0f h1b hsc hmf h2c]
              refine posInv_emit s _ [] h (by simp) (by simp) (by simp) (by simp) (le_refl _) ?_ ?_
              · intro _; simp at hg ⊢; omega
              · simp; omega
            · have h2b : (c == '<') = false := by simp [h2c]
              rw [step_nay ts s c h0f h1b hsc hmf h2b]
              refine posInv_emit s _ [] h (by simp) (by simp) (by simp) (by simp) (le_refl _) ?_ ?_
              · intro _; simp at hg ⊢; omega
              · simp; omega
      | hit hh =>
          rw [step_hit ts s c hh h0f h1b hsc]
          cases hm : s.mode with
          | plain =>
              rw [hm] at hsc
              rcases scan_plain_hit hsc with ⟨rfl, hteq⟩ | ⟨nm2, rfl, hnm, hteq⟩
              · simp only [applyHit, hm]
                refine posInv_emit s _ (flushLog s.bufPos s.buf) h rfl
                  (flushLog_pairwise _ _) (fun pe hpe => le_of_eq (flushLog_mem hpe).symm)
                  (fun pe hpe => ?_) (by simp; omega) (fun _ => by simp) (by simp)
                · rw [flushLog_mem hpe]; simp; omega
              · simp only [applyHit, hm]
                refine posInv_emit s _
                  (flushLog s.bufPos s.buf ++ [(s.pos + 1 - (s.tagBuf ++ [c]).length,
                    .toolCallStart s.nextId nm2)]) h (by simp) ?_ ?_ ?_ (by simp; omega)
                  (fun _ => by simp) (by simp)
                · refine pairwise_append_bound (flushLog_pairwise _ _)
                    (fun pe hpe => le_of_eq (flushLog_mem hpe)) (List.pairwise_singleton _ _) ?_
                  intro pe hpe
                  simp only [List.mem_cons, List.not_mem_nil, or_false] at hpe
                  subst hpe
                  simp
                  omega
                · intro pe hpe
                  rcases List.mem_append.mp hpe with hpe | hpe
                  · exact le_of_eq (flushLog_mem hpe).symm
                  · simp only [List.mem_cons, List.not_mem_nil, or_false] at hpe
                    subst hpe
                    simp
                    omega
                · intro pe hpe
                  rcases List.mem_append.mp hpe with hpe | hpe
                  · rw [flushLog_mem hpe]; simp; omega
                  · simp only [List.mem_cons, List.not_mem_nil, or_false] at hpe
                    subst hpe
                    simp
                    omega
          | thinking =>
              rw [hm] at hsc
              obtain ⟨rfl, hteq⟩ := scan_thinking_hit hsc
              simp only [applyHit, hm]
              refine posInv_emit s _ [(s.bufPos, .thinkingDelta s.buf)] h rfl
                (List.pairwise_singleton _ _) (fun pe hpe => ?_) (fun pe hpe => ?_)
                (by simp; omega) (fun _ => by simp) (by simp)
              · simp only [List.mem_cons, List.not_mem_nil, or_false] at hpe
                subst hpe; simp
              · simp only [List.mem_cons, List.not_mem_nil, or_false] at hpe
                subst hpe; simp; omega
          | tool id nm args =>
              rw [hm] at hsc
              rcases scan_tool_hit hsc with ⟨rfl, hteq⟩ | ⟨p2, rfl, hp, hteq⟩
              · simp only [applyHit, hm]
                refine posInv_emit s _
                  [(s.pos + 1 - (s.tagBuf ++ [c]).length,
                    .toolCallEnd id nm args (if nm ∈ ts then false else true))] h rfl
                  (List.pairwise_singleton _ _) (fun pe hpe => ?_) (fun pe hpe => ?_)
                  (by simp; omega) (fun _ => by simp) (by simp)
                · simp only [List.mem_cons, List.not_mem_nil, or_false] at hpe
                  subst hpe; simp; omega
                · simp only [List.mem_cons, List.not_mem_nil, or_false] at hpe
                  subst hpe; simp; omega
              · simp only [applyHit, hm]
                refine posInv_emit s _ [] h (by simp) (by simp) (by simp) (by simp)
                  (by simp; omega) (fun _ => by simp) (by simp)
          | param id nm args p =>
              rw [hm] at hsc
              obtain ⟨rfl, hteq⟩ := scan_param_hit hsc
              simp only [applyHit, hm]
              refine posInv_emit s _ (argLog s.bufPos id s.buf) h rfl
                (argLog_pairwise _ _ _) (fun pe hpe => le_of_eq (argLog_mem hpe).symm)
                (fun pe hpe => ?_) (by simp; omega) (fun _ => by simp) (by simp)
              · rw [argLog_mem hpe]; simp; omega

theorem posInv_feed (ts : List Str) :
    ∀ (inp : Str) (s : ScanState), posInv s → posInv (feed ts s inp) := by
  intro inp
  induction inp with
  | nil => intro s h; exact h
  | cons c rest ih =>
      intro s h
      rw [feed_cons]
      exact ih _ (posInv_step ts s c h)

theorem posInv_endSession (s : ScanState) (h : posInv s) : posInv (endSession s) := by
  by_cases h0 : s.failed = true
  · rw [endSession_frozen s h0]; exact h
  · have h0f : s.failed = false := by
      cases hx : s.failed with
      | false => rfl
      | true => exact absurd hx h0
    have hb := h.2.1
    cases hm : s.mode with
    | plain =>
        rw [endSession_plain s h0f hm]
        refine posInv_emit s _
          (flushLog s.bufPos (s.buf ++ s.tagBuf)
            ++ [(s.pos, .finish (if s.sawTool then .toolCalls else .stop))]) h (by simp)
          ?_ ?_ ?_ (by simpa using hb) (fun _ => by simp) (by simp)
        · refine pairwise_append_bound (flushLog_pairwise _ _)
            (fun pe hpe => le_of_eq (flushLog_mem hpe)) (List.pairwise_singleton _ _) ?_
          intro pe hpe
          simp only [List.mem_cons, List.not_mem_nil, or_false] at hpe
          subst hpe
          simpa using hb
        · intro pe hpe
          rcases List.mem_append.mp hpe with hpe | hpe
          · exact le_of_eq (flushLog_mem hpe).symm
          · simp only [List.mem_cons, List.not_mem_nil, or_false] at hpe
            subst hpe
            simpa using hb
        · intro pe hpe
          rcases List.mem_append.mp hpe with hpe | hpe
          · rw [flushLog_mem hpe]; simpa using hb
          · simp only [List.mem_cons, List.not_mem_nil, or_false] at hpe
            subst hpe
            simp
    | thinking =>
        have hend : endSession s
            = { s with failed := true, buf := [], tagBuf := [], bufPos := s.pos,
                       log := s.log ++ [(s.pos, .error .unterminated), (s.pos, .finish .err)] } := by
          rw [endSession]
          simp [h0f, hm]
        rw [hend]
        refine posInv_emit s _ [(s.pos, .error .unterminated), (s.pos, .finish .err)] h (by simp)
          ?_ ?_ ?_ (by simpa using hb) (fun hf => by simp at hf) (by simp)
        · refine List.Pairwise.cons ?_ (List.pairwise_singleton _ _)
          intro b hbm
          simp only [List.mem_cons, List.not_mem_nil, or_false] at hbm
          subst hbm
          exact le_refl _
        · intro pe hpe
          simp only [List.mem_cons, List.not_mem_nil, or_false] at hpe
          rcases hpe with hpe | hpe <;> (subst hpe; simpa using hb)
        · intro pe hpe
          simp only [List.mem_cons, List.not_mem_nil, or_false] at hpe
          rcases hpe with hpe | hpe <;> (subst hpe; simp)
    | tool id nm args =>
        have hend : endSession s
            = { s with failed := true, buf := [], tagBuf := [], bufPos := s.pos,
                       log := s.log ++ [(s.pos, .error .unterminated), (s.pos, .finish .err)] } := by
          rw [endSession]
          simp [h0f, hm]
        rw [hend]
        refine posInv_emit s _ [(s.pos, .error .unterminated), (s.pos, .finish .err)] h (by simp)
          ?_ ?_ ?_ (by simpa using hb) (fun hf => by simp at hf) (by simp)
        · refine List.Pairwise.cons ?_ (List.pairwise_singleton _ _)
          intro b hbm
          simp only [List.mem_cons, List.not_mem_nil, or_false] at hbm
          subst hbm
          exact le_refl _
        · intro pe hpe
          simp only [List.mem_cons, List.not_mem_nil, or_false] at hpe
          rcases hpe with hpe | hpe <;> (subst hpe; simpa using hb)
        · intro pe hpe
          simp only [List.mem_cons, List.not_mem_nil, or_false] at hpe
          rcases hpe with hpe | hpe <;> (subst hpe; simp)
    | param id nm args p =>
        have hend : endSession s
            = { s with failed := true, buf := [], tagBuf := [], bufPos := s.pos,
                       log := s.log ++ [(s.pos, .error .unterminated), (s.pos, .finish .err)] } := by
          rw [endSession]
          simp [h0f, hm]
        rw [hend]
        refine posInv_emit s _ [(s.pos, .error .unterminated), (s.pos, .finish .err)] h (by simp)
          ?_ ?_ ?_ (by simpa using hb) (fun hf => by simp at hf) (by simp)
        · refine List.Pairwise.cons ?_ (List.pairwise_singleton _ _)
          intro b hbm
          simp only [List.mem_cons, List.not_mem_nil, or_false] at hbm
          subst hbm
          exact le_refl _
        · intro pe hpe
          simp only [List.mem_cons, List.not_mem_nil, or_false] at hpe
          rcases hpe with hpe | hpe <;> (subst hpe; simpa using hb)
        · intro pe hpe
          simp only [List.mem_cons, List.not_mem_nil, or_false] at hpe
          rcases hpe with hpe | hpe <;> (subst hpe; simp)

/-! ## Shape of a parser step -/

/-- Every step is one of: frozen after failure; a fatal failure; a quiet
buffering step; a flush into thinking mode; a thinking-block flush; a
tool-call open (optionally preceded by a text flush); an argument flush on
parameter close; or a tool-call close. -/
theorem step_shape (ts : List Str) (s : ScanState) (c : Char) :
    (s.failed = true ∧ step ts s c = s)
  ∨ (s.failed = false ∧ ∃ m, step ts s c = failAt s (s.pos + 1) m)
  ∨ (s.failed = false ∧ (step ts s c).failed = false ∧ (step ts s c).log = s.log
      ∧ mOpen (step ts s c).mode = mOpen s.mode ∧ (step ts s c).nextId = s.nextId)
  ∨ (s.failed = false ∧ (step ts s c).failed = false
      ∧ (step ts s c).log = s.log ++ flushLog s.bufPos s.buf
      ∧ mOpen (step ts s c).mode = mOpen s.mode ∧ (step ts s c).nextId = s.nextId)
  ∨ (s.failed = false ∧ (step ts s c).failed = false
      ∧ (step ts s c).log = s.log ++ [(s.bufPos, .thinkingDelta s.buf)]
      ∧ mOpen (step ts s c).mode = mOpen s.mode ∧ (step ts s c).nextId = s.nextId)
  ∨ (∃ nm, s.failed = false ∧ (step ts s c).failed = false
      ∧ (step ts s c).log = s.log ++ flushLog s.bufPos s.buf
          ++ [(s.pos + 1 - (s.tagBuf ++ [c]).length, .toolCallStart s.nextId nm)]
      ∧ mOpen s.mode = none ∧ mOpen (step ts s c).mode = some s.nextId
      ∧ (step ts s c).nextId = s.nextId + 1)
  ∨ (∃ id0, s.failed = false ∧ (step ts s c).failed = false
      ∧ (step ts s c).log = s.log ++ argLog s.bufPos id0 s.buf
      ∧ mOpen s.mode = some id0 ∧ mOpen (step ts s c).mode = some id0
      ∧ (step ts s c).nextId = s.nextId)
  ∨ (∃ id0 nm args unk, s.failed = false ∧ (step ts s c).failed = false
      ∧ (step ts s c).log
          = s.log ++ [(s.pos + 1 - (s.tagBuf ++ [c]).length, .toolCallEnd id0 nm args unk)]
      ∧ mOpen s.mode = some id0 ∧ mOpen (step ts s c).mode = none
      ∧ (step ts s c).nextId = s.nextId) := by
  by_cases h0 : s.failed = true
  · exact Or.inl ⟨h0, step_frozen ts s c h0⟩
  · have h0f : s.failed = false := by
      cases hx : s.failed with
      | false => rfl
      | true => exact absurd hx h0
    by_cases ht : s.tagBuf = []
    · by_cases h2c : c = '<'
      · refine Or.inr (Or.inr (Or.inl ⟨h0f, ?_, ?_, ?_, ?_⟩)) <;>
          rw [step_tag_start ts s c h0f ht h2c]
        · exact h0f
      · have h2b : (c == '<') = false := by simp [h2c]
        by_cases hm : isToolMode s.mode = true
        · exact Or.inr (Or.inl ⟨h0f, _, step_lit_tool ts s c h0f ht h2b hm⟩)
        · have hmf : isToolMode s.mode = false := by
            cases hx : isToolMode s.mode with
            | false => rfl
            | true => exact absurd hx hm
          refine Or.inr (Or.inr (Or.inl ⟨h0f, ?_, ?_, ?_, ?_⟩)) <;>
            rw [step_lit ts s c h0f ht h2b hmf]
          · exact h0f
    · have h1b : s.tagBuf.isEmpty = false := by
        cases htb : s.tagBuf with
        | nil => exact absurd htb ht
        | cons a as => rfl
      cases hsc : scan s.mode (s.tagBuf ++ [c]) with
      | more =>
          by_cases hlen : maxTagBuf < (s.tagBuf ++ [c]).length
          · exact Or.inr (Or.inl ⟨h0f, _, step_more_limit ts s c h0f h1b hsc hlen⟩)
          · refine Or.inr (Or.inr (Or.inl ⟨h0f, ?_, ?_, ?_, ?_⟩)) <;>
              rw [step_more ts s c h0f h1b hsc hlen]
            · exact h0f
      | nay =>
          by_cases hm : isToolMode s.mode = true
          · exact Or.inr (Or.inl ⟨h0f, _, step_nay_tool ts s c h0f h1b hsc hm⟩)
          · have hmf : isToolMode s.mode = false := by
              cases hx : isToolMode s.mode with
              | false => rfl
              | true => exact absurd hx hm
            by_cases h2c : c = '<'
            · refine Or.inr (Or.inr (Or.inl ⟨h0f, ?_, ?_, ?_, ?_⟩)) <;>
                rw [step_nay_lt ts s c h0f h1b hsc hmf h2c]
              · exact h0f
            · have h2b : (c == '<') = false := by simp [h2c]
              refine Or.inr (Or.inr (Or.inl ⟨h0f, ?_, ?_, ?_, ?_⟩)) <;>
                rw [step_nay ts s c h0f h1b hsc hmf h2b]
              · exact h0f
      | hit hh =>
          rw [step_hit ts s c hh h0f h1b hsc]
          cases hm : s.mode with
          | plain =>
              rw [hm] at hsc
              rcases scan_plain_hit hsc with ⟨rfl, hteq⟩ | ⟨nm2, rfl, hnm, hteq⟩
              · refine Or.inr (Or.inr (Or.inr (Or.inl ⟨h0f, ?_, ?_, ?_, ?_⟩))) <;>
                  simp [applyHit, hm, mOpen]
                exact h0f
              · refine Or.inr (Or.inr (Or.inr (Or.inr (Or.inr (Or.inl
                  ⟨nm2, h0f, ?_, ?_, ?_, ?_, ?_⟩))))) <;>
                  simp [applyHit, hm, mOpen]
                exact h0f
          | thinking =>
              rw [hm] at hsc
              obtain ⟨rfl, hteq⟩ := scan_thinking_hit hsc
              refine Or.inr (Or.inr (Or.inr (Or.inr (Or.inl ⟨h0f, ?_, ?_, ?_, ?_⟩)))) <;>
                simp [applyHit, hm, mOpen]
              exact h0f
          | tool id nm args =>
              rw [hm] at hsc
              rcases scan_tool_hit hsc with ⟨rfl, hteq⟩ | ⟨p2, rfl, hp, hteq⟩
              · refine Or.inr (Or.inr (Or.inr (Or.inr (Or.inr (Or.inr (Or.inr
                  ⟨id, nm, args, (if nm ∈ ts then false else true), h0f, ?_, ?_, ?_, ?_, ?_⟩)))))) <;>
                  simp [applyHit, hm, mOpen]
                exact h0f
              · refine Or.inr (Or.inr (Or.inl ⟨h0f, ?_, ?_, ?_, ?_⟩)) <;>
                  simp [applyHit, hm, mOpen]
                exact h0f
          | param id nm args p =>
              rw [hm] at hsc
              obtain ⟨rfl, hteq⟩ := scan_param_hit hsc
              refine Or.inr (Or.inr (Or.inr (Or.inr (Or.inr (Or.inr (Or.inl
                ⟨id, h0f, ?_, ?_, ?_, ?_, ?_⟩)))))) <;>
                simp [applyHit, hm, mOpen]
              exact h0f

/-! ## Terminal-pair invariant -/

/-- Before end of stream: a healthy session has emitted no terminal event,
and a failed session's log is a terminal-free prefix followed by exactly one
`error` and one `finish{"error"}`. -/
def termInv (s : ScanState) : Prop :=
  (s.failed = false → ∀ pe ∈ s.log, notTerm pe.2 = true)
  ∧ (s.failed = true → ∃ pre m p q,
      s.log = pre ++ [(p, .error m), (q, .finish .err)] ∧ ∀ pe ∈ pre, notTerm pe.2 = true)

theorem termInv_init : termInv initState :=
  ⟨fun _ pe hpe => absurd hpe (List.not_mem_nil pe), fun h => Bool.noConfusion h⟩

theorem flushLog_notTerm {bp : Nat} {u : Str} : ∀ pe ∈ flushLog bp u, notTerm pe.2 = true := by
  intro pe hpe
  unfold flushLog at hpe
  by_cases he : u.isEmpty
  · simp [he] at hpe
  · simp only [he, Bool.false_eq_true, if_false, List.mem_cons, List.not_mem_nil, or_false] at hpe
    subst hpe
    rfl

theorem argLog_notTerm {bp id : Nat} {u : Str} : ∀ pe ∈ argLog bp id u, notTerm pe.2 = true := by
  intro pe hpe
  unfold argLog at hpe
  by_cases he : u.isEmpty
  · simp [he] at hpe
  · simp only [he, Bool.false_eq_true, if_false, List.mem_cons, List.not_mem_nil, or_false] at hpe
    subst hpe
    rfl

theorem termInv_extend (s s' : ScanState) (new : List (Nat × Event))
    (h : termInv s) (hf : s.failed = false) (hf' : s'.failed = false)
    (hlog : s'.log = s.log ++ new) (hnt : ∀ pe ∈ new, notTerm pe.2 = true) : termInv s' := by
  refine ⟨?_, ?_⟩
  · intro _ pe hpe
    rw [hlog] at hpe
    rcases List.mem_append.mp hpe with hpe | hpe
    · exact h.1 hf pe hpe
    · exact hnt pe hpe
  · intro hcon
    rw [hf'] at hcon
    exact Bool.noConfusion hcon

theorem termInv_failAt (s : ScanState) (p : Nat) (m : Emsg)
    (h : termInv s) (hf : s.failed = false) : termInv (failAt s p m) := by
  refine ⟨?_, ?_⟩
  · intro hx
    simp [failAt] at hx
  · intro _
    exact ⟨s.log, m, p, p, by simp [failAt], h.1 hf⟩

theorem termInv_step (ts : List Str) (s : ScanState) (c : Char) (h : termInv s) :
    termInv (step ts s c) := by
  rcases step_shape ts s c with ⟨_, heq⟩ | ⟨hf, m, heq⟩
    | ⟨hf, hf', hlog, _, _⟩ | ⟨hf, hf', hlog, _, _⟩ | ⟨hf, hf', hlog, _, _⟩
    | ⟨nm, hf, hf', hlog, _, _, _⟩ | ⟨id0, hf, hf', hlog, _, _, _⟩
    | ⟨id0, nm, args, unk, hf, hf', hlog, _, _, _⟩
  · rw [heq]; exact h
  · rw [heq]; exact termInv_failAt s _ m h hf
  · exact termInv_extend s _ [] h hf hf' (by simpa using hlog)
      (fun pe hpe => absurd hpe (List.not_mem_nil pe))
  · exact termInv_extend s _ _ h hf hf' hlog flushLog_notTerm
  · refine termInv_extend s _ _ h hf hf' hlog ?_
    intro pe hpe
    simp only [List.mem_cons, List.not_mem_nil, or_false] at hpe
    subst hpe
    rfl
  · refine termInv_extend s _ _ h hf hf' (by rw [hlog, List.append_assoc]) ?_
    intro pe hpe
    rcases List.mem_append.mp hpe with hpe | hpe
    · exact flushLog_notTerm pe hpe
    · simp only [List.mem_cons, List.not_mem_nil, or_false] at hpe
      subst hpe
      rfl
  · exact termInv_extend s _ _ h hf hf' hlog argLog_notTerm
  · refine termInv_extend s _ _ h hf hf' hlog ?_
    intro pe hpe
    simp only [List.mem_cons, List.not_mem_nil, or_false] at hpe
    subst hpe
    rfl

theorem termInv_feed (ts : List Str) :
    ∀ (inp : Str) (s : ScanState), termInv s → termInv (feed ts s inp) := by
  intro inp
  induction inp with
  | nil => intro s h; exact h
  | cons c rest ih =>
      intro s h
      rw [feed_cons]
      exact ih _ (termInv_step ts s c h)

/-! ## Tool-call id bracketing invariant -/

theorem concat_split {α : Type} (l : List α) (e : α) (u v : List α) (x : α)
    (h : l ++ [e] = u ++ x :: v) :
    (u = l ∧ x = e ∧ v = []) ∨ ∃ v0, l = u ++ x :: v0 ∧ v = v0 ++ [e] := by
  rcases List.eq_nil_or_concat v with rfl | ⟨v0, b, rfl⟩
  · left
    obtain ⟨hl, ht⟩ := List.append_inj' h rfl
    injection ht with hx
    exact ⟨hl.symm, hx.symm, rfl⟩
  · right
    rw [List.concat_eq_append] at h ⊢
    have hassoc : u ++ x :: (v0 ++ [b]) = (u ++ x :: v0) ++ [b] := by simp
    rw [hassoc] at h
    obtain ⟨hl, ht⟩ := List.append_inj' h rfl
    injection ht with hb
    exact ⟨v0, hl, by rw [hb]⟩

theorem isEnd_refs {id : Nat} {e : Event} : isEnd id e = true → refs id e = true := by
  cases e <;> simp [isEnd, refs]

theorem isStart_refs {id : Nat} {e : Event} : isStart id e = true → refs id e = true := by
  cases e <;> simp [isStart, refs]

theorem isDelta_refs {id : Nat} {e : Event} : isDelta id e = true → refs id e = true := by
  cases e <;> simp [isDelta, refs]

theorem notRef_isEnd {id : Nat} {e : Event} (h : refs id e = false) : isEnd id e = false := by
  cases hx : isEnd id e with
  | false => rfl
  | true => rw [isEnd_refs hx] at h; exact h

theorem notRef_isDelta {id : Nat} {e : Event} (h : refs id e = false) : isDelta id e = false := by
  cases hx : isDelta id e with
  | false => rfl
  | true => rw [isDelta_refs hx] at h; exact h

theorem isStart_elim {id : Nat} {e : Event} (h : isStart id e = true) :
    ∃ nm, e = .toolCallStart id nm := by
  cases e with
  | toolCallStart i nm =>
      simp only [isStart, beq_iff_eq] at h
      subst h
      exact ⟨nm, rfl⟩
  | textDelta t => exact Bool.noConfusion h
  | thinkingDelta t => exact Bool.noConfusion h
  | toolCallArgDelta i t => exact Bool.noConfusion h
  | toolCallEnd i nm a u => exact Bool.noConfusion h
  | finish r => exact Bool.noConfusion h
  | error m => exact Bool.noConfusion h

/-- The bracketing invariant over a log, the id of the open call, and the
fresh-id source. -/
def idInvT (log : List (Nat × Event)) (op : Option Nat) (next : Nat) : Prop :=
  (∀ id, op = some id →
      id < next ∧ (∃ pe ∈ log, isStart id pe.2 = true) ∧ ∀ pe ∈ log, isEnd id pe.2 = false)
  ∧ (∀ id u v p e, log = u ++ (p, e) :: v → isEnd id e = true → ∀ qe ∈ v, refs id qe.2 = false)
  ∧ (∀ id, (∃ pe ∈ log, isEnd id pe.2 = true) → op ≠ some id)
  ∧ (∀ id u v p e, log = u ++ (p, e) :: v → isDelta id e = true →
      (∃ qe ∈ u, isStart id qe.2 = true) ∧ ∀ qe ∈ u, isEnd id qe.2 = false)
  ∧ (∀ id pe, pe ∈ log → refs id pe.2 = true → id < next)

/-- The bracketing invariant of a session state. -/
def idInv (s : ScanState) : Prop := idInvT s.log (mOpen s.mode) s.nextId

theorem idInvT_init (next : Nat) : idInvT [] none next := by
  refine ⟨?_, ?_, ?_, ?_, ?_⟩
  · intro id hop; exact Option.noConfusion hop
  · intro id u v p e hsplit
    exact absurd hsplit (by simp)
  · intro id ⟨pe, hpe, _⟩; exact absurd hpe (List.not_mem_nil pe)
  · intro id u v p e hsplit
    exact absurd hsplit (by simp)
  · intro id pe hpe; exact absurd hpe (List.not_mem_nil pe)

/-- Appending an event referencing no id preserves the bracketing invariant
(for an arbitrary open-call transition among states that do not change the
open id). -/
theorem idInvT_nonref {log : List (Nat × Event)} {op : Option Nat} {next : Nat}
    (e : Nat × Event) (h : idInvT log op next) (he : ∀ id, refs id e.2 = false) :
    idInvT (log ++ [e]) op next := by
  obtain ⟨h1, h2, h3, h4, h5⟩ := h
  refine ⟨?_, ?_, ?_, ?_, ?_⟩
  · intro id hop
    obtain ⟨hlt, ⟨pe, hpe, hst⟩, hnd⟩ := h1 id hop
    refine ⟨hlt, ⟨pe, List.mem_append_left _ hpe, hst⟩, ?_⟩
    intro pe2 hpe2
    rcases List.mem_append.mp hpe2 with hpe2 | hpe2
    · exact hnd pe2 hpe2
    · simp only [List.mem_cons, List.not_mem_nil, or_false] at hpe2
      subst hpe2
      exact notRef_isEnd (he id)
  · intro id u v p e2 hsplit hend qe hqe
    rcases concat_split log e u v (p, e2) hsplit with ⟨rfl, heq, rfl⟩ | ⟨v0, hlog0, rfl⟩
    · exact absurd hqe (List.not_mem_nil qe)
    · rcases List.mem_append.mp hqe with hqe | hqe
      · exact h2 id u v0 p e2 hlog0 hend qe hqe
      · simp only [List.mem_cons, List.not_mem_nil, or_false] at hqe
        subst hqe
        exact he id
  · rintro id ⟨pe, hpe, hend⟩
    rcases List.mem_append.mp hpe with hpe | hpe
    · exact h3 id ⟨pe, hpe, hend⟩
    · simp only [List.mem_cons, List.not_mem_nil, or_false] at hpe
      subst hpe
      rw [notRef_isEnd (he id)] at hend
      exact Bool.noConfusion hend
  · intro id u v p e2 hsplit hdel
    rcases concat_split log e u v (p, e2) hsplit with ⟨rfl, heq, rfl⟩ | ⟨v0, hlog0, rfl⟩
    · have : isDelta id e.2 = true := by rw [← heq] at *; exact hdel
      rw [notRef_isDelta (he id)] at this
      exact Bool.noConfusion this
    · exact h4 id u v0 p e2 hlog0 hdel
  · intro id pe hpe href
    rcases List.mem_append.mp hpe with hpe | hpe
    · exact h5 id pe hpe href
    · simp only [List.mem_cons, List.not_mem_nil, or_false] at hpe
      subst hpe
      rw [he id] at href
      exact Bool.noConfusion href

theorem idInvT_nonref_list {log : List (Nat × Event)} {op : Option Nat} {next : Nat}
    (new : List (Nat × Event)) (h : idInvT log op next)
    (hnew : ∀ pe ∈ new, ∀ id, refs id pe.2 = false) :
    idInvT (log ++ new) op next := by
  induction new generalizing log with
  | nil => simpa using h
  | cons e rest ih =>
      have hstep : idInvT (log ++ [e]) op next :=
        idInvT_nonref e h (fun id => hnew e (List.mem_cons_self e rest) id)
      have hrest : ∀ pe ∈ rest, ∀ id, refs id pe.2 = false :=
        fun pe hpe => hnew pe (List.mem_cons_of_mem e hpe)
      have := ih hstep hrest
      simpa [List.append_assoc] using this

theorem flushLog_nonref {bp : Nat} {u : Str} :
    ∀ pe ∈ flushLog bp u, ∀ id, refs id pe.2 = false := by
  intro pe hpe id
  unfold flushLog at hpe
  by_cases he : u.isEmpty
  · simp [he] at hpe
  · simp only [he, Bool.false_eq_true, if_false, List.mem_cons, List.not_mem_nil, or_false] at hpe
    subst hpe
    rfl

/-- Opening a fresh tool call: the new id is fresh, its start is emitted, and
every older id keeps its bracketing. -/
theorem idInvT_start {log : List (Nat × Event)} {next : Nat} (p : Nat) (nm : Str)
    (h : idInvT log none next) :
    idInvT (log ++ [(p, .toolCallStart next nm)]) (some next) (next + 1) := by
  obtain ⟨h1, h2, h3, h4, h5⟩ := h
  have hnoend : ∀ pe ∈ log, isEnd next pe.2 = false := by
    intro pe hpe
    cases hx : isEnd next pe.2 with
    | false => rfl
    | true => exact absurd (h5 next pe hpe (isEnd_refs hx)) (lt_irrefl next)
  refine ⟨?_, ?_, ?_, ?_, ?_⟩
  · intro id hop
    injection hop with hid
    subst hid
    refine ⟨Nat.lt_succ_self next,
      ⟨(p, .toolCallStart next nm), List.mem_append_right _ (by simp), by simp [isStart]⟩, ?_⟩
    intro pe hpe
    rcases List.mem_append.mp hpe with hpe | hpe
    · exact hnoend pe hpe
    · simp only [List.mem_cons, List.not_mem_nil, or_false] at hpe
      subst hpe
      rfl
  · intro id u v p2 e2 hsplit hend qe hqe
    rcases concat_split log _ u v (p2, e2) hsplit with ⟨rfl, heq, rfl⟩ | ⟨v0, hlog0, rfl⟩
    · exact absurd hqe (List.not_mem_nil qe)
    · rcases List.mem_append.mp hqe with hqe | hqe
      · exact h2 id u v0 p2 e2 hlog0 hend qe hqe
      · simp only [List.mem_cons, List.not_mem_nil, or_false] at hqe
        subst hqe
        have hmem : (p2, e2) ∈ log := by
          rw [hlog0]
          exact List.mem_append_right _ (by simp)
        have hlt : id < next := h5 id (p2, e2) hmem (isEnd_refs hend)
        simp only [refs, beq_eq_false_iff_ne]
        omega
  · rintro id ⟨pe, hpe, hend⟩
    rcases List.mem_append.mp hpe with hpe | hpe
    · have hlt : id < next := h5 id pe hpe (isEnd_refs hend)
      intro hcon
      injection hcon with hid
      omega
    · simp only [List.mem_cons, List.not_mem_nil, or_false] at hpe
      subst hpe
      exact Bool.noConfusion hend
  · intro id u v p2 e2 hsplit hdel
    rcases concat_split log _ u v (p2, e2) hsplit with ⟨rfl, heq, rfl⟩ | ⟨v0, hlog0, rfl⟩
    · have he2 : e2 = Event.toolCallStart next nm := congrArg Prod.snd heq
      rw [he2] at hdel
      exact Bool.noConfusion hdel
    · exact h4 id u v0 p2 e2 hlog0 hdel
  · intro id pe hpe href
    rcases List.mem_append.mp hpe with hpe | hpe
    · exact Nat.lt_succ_of_lt (h5 id pe hpe href)
    · simp only [List.mem_cons, List.not_mem_nil, or_false] at hpe
      subst hpe
      simp only [refs, beq_iff_eq] at href
      omega

/-- Emitting an argument delta of the open call preserves the bracketing. -/
theorem idInvT_delta {log : List (Nat × Event)} {next id0 : Nat} (p : Nat) (t : Str)
    (h : idInvT log (some id0) next) :
    idInvT (log ++ [(p, .toolCallArgDelta id0 t)]) (some id0) next := by
  obtain ⟨h1, h2, h3, h4, h5⟩ := h
  obtain ⟨hlt, ⟨pe0, hpe0, hst0⟩, hnoend⟩ := h1 id0 rfl
  refine ⟨?_, ?_, ?_, ?_, ?_⟩
  · intro id hop
    injection hop with hid
    subst hid
    refine ⟨hlt, ⟨pe0, List.mem_append_left _ hpe0, hst0⟩, ?_⟩
    intro pe hpe
    rcases List.mem_append.mp hpe with hpe | hpe
    · exact hnoend pe hpe
    · simp only [List.mem_cons, List.not_mem_nil, or_false] at hpe
      subst hpe
      rfl
  · intro id u v p2 e2 hsplit hend qe hqe
    rcases concat_split log _ u v (p2, e2) hsplit with ⟨rfl, heq, rfl⟩ | ⟨v0, hlog0, rfl⟩
    · exact absurd hqe (List.not_mem_nil qe)
    · rcases List.mem_append.mp hqe with hqe | hqe
      · exact h2 id u v0 p2 e2 hlog0 hend qe hqe
      · simp only [List.mem_cons, List.not_mem_nil, or_false] at hqe
        subst hqe
        have hmem : (p2, e2) ∈ log := by
          rw [hlog0]
          exact List.mem_append_right _ (by simp)
        have hne := h3 id ⟨(p2, e2), hmem, hend⟩
        simp only [refs, beq_eq_false_iff_ne]
        intro hcon
        exact hne (by rw [hcon])
  · rintro id ⟨pe, hpe, hend⟩
    rcases List.mem_append.mp hpe with hpe | hpe
    · exact h3 id ⟨pe, hpe, hend⟩
    · simp only [List.mem_cons, List.not_mem_nil, or_false] at hpe
      subst hpe
      exact Bool.noConfusion hend
  · intro id u v p2 e2 hsplit hdel
    rcases concat_split log _ u v (p2, e2) hsplit with ⟨rfl, heq, rfl⟩ | ⟨v0, hlog0, rfl⟩
    · have he2 : e2 = Event.toolCallArgDelta id0 t := congrArg Prod.snd heq
      rw [he2] at hdel
      simp only [isDelta, beq_iff_eq] at hdel
      subst hdel
      exact ⟨⟨pe0, hpe0, hst0⟩, hnoend⟩
    · exact h4 id u v0 p2 e2 hlog0 hdel
  · intro id pe hpe href
    rcases List.mem_append.mp hpe with hpe | hpe
    · exact h5 id pe hpe href
    · simp only [List.mem_cons, List.not_mem_nil, or_false] at hpe
      subst hpe
      simp only [refs, beq_iff_eq] at href
      subst href
      exact hlt

theorem idInvT_argLog {log : List (Nat × Event)} {next id0 : Nat} (bp : Nat) (u : Str)
    (h : idInvT log (some id0) next) :
    idInvT (log ++ argLog bp id0 u) (some id0) next := by
  unfold argLog
  by_cases he : u.isEmpty
  · simpa [he] using h
  · simp only [he, Bool.false_eq_true, if_false]
    exact idInvT_delta bp u h

/-- Closing the open tool call emits its single end event; afterwards nothing
references the closed id again. -/
theorem idInvT_close {log : List (Nat × Event)} {next id0 : Nat} (p : Nat) (nm : Str)
    (args : List (Str × Str)) (unk : Bool) (h : idInvT log (some id0) next) :
    idInvT (log ++ [(p, .toolCallEnd id0 nm args unk)]) none next := by
  obtain ⟨h1, h2, h3, h4, h5⟩ := h
  obtain ⟨hlt, hstart, hnoend⟩ := h1 id0 rfl
  refine ⟨?_, ?_, ?_, ?_, ?_⟩
  · intro id hop
    exact Option.noConfusion hop
  · intro id u v p2 e2 hsplit hend qe hqe
    rcases concat_split log _ u v (p2, e2) hsplit with ⟨rfl, heq, rfl⟩ | ⟨v0, hlog0, rfl⟩
    · exact absurd hqe (List.not_mem_nil qe)
    · rcases List.mem_append.mp hqe with hqe | hqe
      · exact h2 id u v0 p2 e2 hlog0 hend qe hqe
      · simp only [List.mem_cons, List.not_mem_nil, or_false] at hqe
        subst hqe
        have hmem : (p2, e2) ∈ log := by
          rw [hlog0]
          exact List.mem_append_right _ (by simp)
        have hne := h3 id ⟨(p2, e2), hmem, hend⟩
        simp only [refs, beq_eq_false_iff_ne]
        intro hcon
        exact hne (by rw [hcon])
  · rintro id ⟨pe, hpe, hend⟩
    intro hcon
    exact Option.noConfusion hcon
  · intro id u v p2 e2 hsplit hdel
    rcases concat_split log _ u v (p2, e2) hsplit with ⟨rfl, heq, rfl⟩ | ⟨v0, hlog0, rfl⟩
    · have he2 : e2 = Event.toolCallEnd id0 nm args unk := congrArg Prod.snd heq
      rw [he2] at hdel
      exact Bool.noConfusion hdel
    · exact h4 id u v0 p2 e2 hlog0 hdel
  · intro id pe hpe href
    rcases List.mem_append.mp hpe with hpe | hpe
    · exact h5 id pe hpe href
    · simp only [List.mem_cons, List.not_mem_nil, or_false] at hpe
      subst hpe
      simp only [refs, beq_iff_eq] at href
      subst href
      exact hlt

theorem idInv_failAt (s : ScanState) (p : Nat) (m : Emsg) (h : idInv s) :
    idInv (failAt s p m) := by
  unfold idInv at h ⊢
  have hstep : idInvT (s.log ++ [(p, Event.error m), (p, Event.finish .err)])
      (mOpen s.mode) s.nextId := by
    have l1 := idInvT_nonref (p, Event.error m) h (fun _ => rfl)
    have l2 := idInvT_nonref (p, Event.finish .err) l1 (fun _ => rfl)
    simpa [List.append_assoc] using l2
  simpa [failAt] using hstep

theorem idInv_step (ts : List Str) (s : ScanState) (c : Char) (h : idInv s) :
    idInv (step ts s c) := by
  rcases step_shape ts s c with ⟨_, heq⟩ | ⟨hf, m, heq⟩
    | ⟨hf, hf', hlog, hmop, hnext⟩ | ⟨hf, hf', hlog, hmop, hnext⟩ | ⟨hf, hf', hlog, hmop, hnext⟩
    | ⟨nm, hf, hf', hlog, hop0, hmop, hnext⟩ | ⟨id0, hf, hf', hlog, hop0, hmop, hnext⟩
    | ⟨id0, nm, args, unk, hf, hf', hlog, hop0, hmop, hnext⟩
  · rw [heq]; exact h
  · rw [heq]; exact idInv_failAt s _ m h
  · unfold idInv
    rw [hlog, hmop, hnext]
    exact h
  · unfold idInv
    rw [hlog, hmop, hnext]
    exact idInvT_nonref_list _ h flushLog_nonref
  · unfold idInv
    rw [hlog, hmop, hnext]
    exact idInvT_nonref _ h (fun _ => rfl)
  · unfold idInv
    rw [hlog, hmop, hnext]
    have h0 : idInvT s.log none s.nextId := by rw [← hop0]; exact h
    have h1' := idInvT_nonref_list (flushLog s.bufPos s.buf) h0 flushLog_nonref
    exact idInvT_start _ nm h1'
  · unfold idInv
    rw [hlog, hmop, hnext]
    have h0 : idInvT s.log (some id0) s.nextId := by rw [← hop0]; exact h
    exact idInvT_argLog _ _ h0
  · unfold idInv
    rw [hlog, hmop, hnext]
    have h0 : idInvT s.log (some id0) s.nextId := by rw [← hop0]; exact h
    exact idInvT_close _ nm args unk h0

theorem idInv_feed (ts : List Str) :
    ∀ (inp : Str) (s : ScanState), idInv s → idInv (feed ts s inp) := by
  intro inp
  induction inp with
  | nil => intro s h; exact h
  | cons c rest ih =>
      intro s h
      rw [feed_cons]
      exact ih _ (idInv_step ts s c h)

theorem endSession_mode (s : ScanState) : (endSession s).mode = s.mode := by
  by_cases h0 : s.failed = true
  · rw [endSession_frozen s h0]
  · have h0f : s.failed = false := by
      cases hx : s.failed with
      | false => rfl
      | true => exact absurd hx h0
    cases hm : s.mode with
    | plain => rw [endSession]; simp [h0f, hm]
    | thinking => rw [endSession]; simp [h0f, hm]
    | tool id nm args => rw [endSession]; simp [h0f, hm]
    | param id nm args p => rw [endSession]; simp [h0f, hm]

theorem endSession_unterminated (s : ScanState) (h0 : s.failed = false)
    (hm : s.mode ≠ .plain) :
    endSession s
      = { s with failed := true, buf := [], tagBuf := [], bufPos := s.pos,
                 log := s.log ++ [(s.pos, .error .unterminated), (s.pos, .finish .err)] } := by
  cases hmm : s.mode with
  | plain => exact absurd hmm hm
  | thinking => rw [endSession]; simp [h0, hmm]
  | tool id nm args => rw [endSession]; simp [h0, hmm]
  | param id nm args p => rw [endSession]; simp [h0, hmm]

theorem idInv_endSession (s : ScanState) (h : idInv s) : idInv (endSession s) := by
  by_cases h0 : s.failed = true
  · rw [endSession_frozen s h0]; exact h
  · have h0f : s.failed = false := by
      cases hx : s.failed with
      | false => rfl
      | true => exact absurd hx h0
    by_cases hm : s.mode = .plain
    · rw [endSession_plain s h0f hm]
      show idInvT
        (s.log ++ flushLog s.bufPos (s.buf ++ s.tagBuf)
          ++ [(s.pos, .finish (if s.sawTool then .toolCalls else .stop))])
        (mOpen s.mode) s.nextId
      have h1' := idInvT_nonref_list (flushLog s.bufPos (s.buf ++ s.tagBuf)) h flushLog_nonref
      exact idInvT_nonref _ h1' (fun _ => rfl)
    · rw [endSession_unterminated s h0f hm]
      show idInvT
        (s.log ++ [(s.pos, .error .unterminated), (s.pos, .finish .err)])
        (mOpen s.mode) s.nextId
      have l1 := idInvT_nonref (s.pos, Event.error .unterminated) h (fun _ => rfl)
      have l2 := idInvT_nonref (s.pos, Event.finish .err) l1 (fun _ => rfl)
      simpa [List.append_assoc] using l2

theorem map_split {α β : Type} (f : α → β) :
    ∀ (l : List α) (u : List β) (x : β) (v : List β), l.map f = u ++ x :: v →
      ∃ u' p v', l = u' ++ p :: v' ∧ u'.map f = u ∧ f p = x ∧ v'.map f = v := by
  intro l
  induction l with
  | nil =>
      intro u x v h
      rw [List.map_nil] at h
      exact absurd h.symm (List.append_ne_nil_of_right_ne_nil u (by simp))
  | cons a as ih =>
      intro u x v h
      cases u with
      | nil =>
          simp only [List.map_cons, List.nil_append] at h
          injection h with h1 h2
          exact ⟨[], a, as, rfl, rfl, h1, h2⟩
      | cons b bs =>
          simp only [List.map_cons, List.cons_append] at h
          injection h with h1 h2
          obtain ⟨u', p, v', hl, hu, hx, hv⟩ := ih bs x v h2
          exact ⟨a :: u', p, v', by simp [hl], by simp [hu, h1], hx, hv⟩

/-! ## Symbolic scan computations -/

theorem beq_cons_cons (a b : Char) (as bs : Str) :
    ((a :: as : Str) == (b :: bs : Str)) = (a == b && (as == bs)) := rfl

theorem beq_nil_cons (b : Char) (bs : Str) : (([] : Str) == (b :: bs : Str)) = false := rfl

theorem beq_cons_nil (a : Char) (as : Str) : ((a :: as : Str) == ([] : Str)) = false := rfl

theorem leadsTo_refl (a : Str) : leadsTo a a = true :=
  (leadsTo_iff a a).mpr ⟨[], by simp⟩

theorem leadsTo_append_ne (a b : Str) (hb : b ≠ []) : leadsTo (a ++ b) a = false := by
  cases h : leadsTo (a ++ b) a with
  | false => rfl
  | true => exact absurd ((leadsTo_append_self a b).mp h) hb

/-- Scanning the tool-call lead-in plus part of a name is still ambiguous. -/
theorem scan_plain_toolpre (w : Str) (hw : w.all nameOk = true) :
    scan .plain (tToolOpenPre ++ w) = .more := by
  have hfix : fixedScan tThinkOpen .thinkOpen (tToolOpenPre ++ w) = .nay := by
    simp [fixedScan, tToolOpenPre, tThinkOpen, beq_cons_cons, leadsTo]
  have htag : taggedScan tToolOpenPre .toolOpen (tToolOpenPre ++ w) = .more := by
    cases w with
    | nil => simp [taggedScan, leadsTo_refl]
    | cons c cs =>
        have h1 : leadsTo (tToolOpenPre ++ c :: cs) tToolOpenPre = false :=
          leadsTo_append_ne _ _ (by simp)
        have h2 : leadsTo tToolOpenPre (tToolOpenPre ++ c :: cs) = true :=
          leadsTo_self_append _ _
        simp [taggedScan, h1, h2, List.drop_left, hw]
  simp [scan, hfix, htag, orScan]

/-- Scanning a complete tool-call open tag hits. -/
theorem scan_plain_toolhit (w : Str) (hw : w.all nameOk = true) :
    scan .plain (tToolOpenPre ++ (w ++ ['>'])) = .hit (.toolOpen w) := by
  have hfix : fixedScan tThinkOpen .thinkOpen (tToolOpenPre ++ (w ++ ['>'])) = .nay := by
    simp [fixedScan, tToolOpenPre, tThinkOpen, beq_cons_cons, leadsTo]
  have htag : taggedScan tToolOpenPre .toolOpen (tToolOpenPre ++ (w ++ ['>']))
      = .hit (.toolOpen w) := by
    have h1 : leadsTo (tToolOpenPre ++ (w ++ ['>'])) tToolOpenPre = false :=
      leadsTo_append_ne _ _ (by simp)
    have h2 : leadsTo tToolOpenPre (tToolOpenPre ++ (w ++ ['>'])) = true :=
      leadsTo_self_append _ _
    have hall : ((w ++ ['>']).all nameOk) = false := by
      simp [List.all_append, nameOk]
    have hdrop : (tToolOpenPre ++ (w ++ ['>'])).drop tToolOpenPre.length = w ++ ['>'] :=
      List.drop_left _ _
    have hdl : (w ++ ['>']).dropLast = w := by simp
    have hgl : (w ++ ['>']).getLast? = some '>' := List.getLast?_concat w
    simp [taggedScan, h1, h2, hdrop, hall, hdl, hgl, hw]
  simp [scan, hfix, htag, orScan]

/-- Scanning the parameter lead-in plus part of a name inside a tool call is
still ambiguous. -/
theorem scan_tool_parampre (id : Nat) (nm2 : Str) (acc : List (Str × Str)) (w : Str)
    (hw : w.all nameOk = true) :
    scan (.tool id nm2 acc) (tParamOpenPre ++ w) = .more := by
  have hfix : fixedScan tToolClose .toolClose (tParamOpenPre ++ w) = .nay := by
    simp [fixedScan, tParamOpenPre, tToolClose, beq_cons_cons, leadsTo]
  have htag : taggedScan tParamOpenPre .paramOpen (tParamOpenPre ++ w) = .more := by
    cases w with
    | nil => simp [taggedScan, leadsTo_refl]
    | cons c cs =>
        have h1 : leadsTo (tParamOpenPre ++ c :: cs) tParamOpenPre = false :=
          leadsTo_append_ne _ _ (by simp)
        have h2 : leadsTo tParamOpenPre (tParamOpenPre ++ c :: cs) = true :=
          leadsTo_self_append _ _
        simp [taggedScan, h1, h2, List.drop_left, hw]
  simp [scan, hfix, htag, orScan]

/-- Scanning a complete parameter open tag inside a tool call hits. -/
theorem scan_tool_paramhit (id : Nat) (nm2 : Str) (acc : List (Str × Str)) (w : Str)
    (hw : w.all nameOk = true) :
    scan (.tool id nm2 acc) (tParamOpenPre ++ (w ++ ['>'])) = .hit (.paramOpen w) := by
  have hfix : fixedScan tToolClose .toolClose (tParamOpenPre ++ (w ++ ['>'])) = .nay := by
    simp [fixedScan, tParamOpenPre, tToolClose, beq_cons_cons, leadsTo]
  have htag : taggedScan tParamOpenPre .paramOpen (tParamOpenPre ++ (w ++ ['>']))
      = .hit (.paramOpen w) := by
    have h1 : leadsTo (tParamOpenPre ++ (w ++ ['>'])) tParamOpenPre = false :=
      leadsTo_append_ne _ _ (by simp)
    have h2 : leadsTo tParamOpenPre (tParamOpenPre ++ (w ++ ['>'])) = true :=
      leadsTo_self_append _ _
    have hall : ((w ++ ['>']).all nameOk) = false := by
      simp [List.all_append, nameOk]
    have hdrop : (tParamOpenPre ++ (w ++ ['>'])).drop tParamOpenPre.length = w ++ ['>'] :=
      List.drop_left _ _
    have hdl : (w ++ ['>']).dropLast = w := by simp
    have hgl : (w ++ ['>']).getLast? = some '>' := List.getLast?_concat w
    simp [taggedScan, h1, h2, hdrop, hall, hdl, hgl, hw]
  simp [scan, hfix, htag, orScan]

/-! ## Symbolic feeding of rendered blocks -/

theorem feed_append (ts : List Str) (s : ScanState) (a b : Str) :
    feed ts s (a ++ b) = feed ts (feed ts s a) b := by
  simp [feed, List.foldl_append]

set_option maxHeartbeats 1000000 in
theorem feed_toolOpenPre (ts : List Str) (buf : Str) (nid : Nat) (st : Bool)
    (pos bp : Nat) (log : List (Nat × Event)) :
    feed ts ⟨.plain, buf, [], nid, st, false, pos, bp, log⟩ tToolOpenPre
      = ⟨.plain, buf, tToolOpenPre, nid, st, false, pos + 11, bp, log⟩ := by
  simp only [feed, tToolOpenPre, List.foldl_cons, List.foldl_nil]
  simp [step, scan, fixedScan, taggedScan, orScan, leadsTo, maxTagBuf, applyHit,
    isToolMode, beq_cons_cons, tThinkOpen, tThinkClose,
    tToolOpenPre, tToolClose, tParamOpenPre, tParamClose]

set_option maxHeartbeats 1000000 in
theorem feed_paramOpenPre (ts : List Str) (id : Nat) (nm2 : Str) (acc : List (Str × Str))
    (nid : Nat) (st : Bool) (pos bp : Nat) (log : List (Nat × Event)) :
    feed ts ⟨.tool id nm2 acc, [], [], nid, st, false, pos, bp, log⟩ tParamOpenPre
      = ⟨.tool id nm2 acc, [], tParamOpenPre, nid, st, false, pos + 7, bp, log⟩ := by
  simp only [feed, tParamOpenPre, List.foldl_cons, List.foldl_nil]
  simp [step, scan, fixedScan, taggedScan, orScan, leadsTo, maxTagBuf, applyHit,
    isToolMode, beq_cons_cons, tThinkOpen, tThinkClose,
    tToolOpenPre, tToolClose, tParamOpenPre, tParamClose]

set_option maxHeartbeats 1000000 in
theorem feed_paramClose (ts : List Str) (id : Nat) (nm2 p : Str) (acc : List (Str × Str))
    (buf : Str) (nid : Nat) (st : Bool) (pos bp : Nat) (log : List (Nat × Event)) :
    feed ts ⟨.param id nm2 acc p, buf, [], nid, st, false, pos, bp, log⟩ tParamClose
      = ⟨.tool id nm2 (acc ++ [(p, buf)]), [], [], nid, st, false, pos + 8, pos + 8,
         log ++ argLog bp id buf⟩ := by
  simp only [feed, tParamClose, List.foldl_cons, List.foldl_nil]
  simp [step, scan, fixedScan, taggedScan, orScan, leadsTo, maxTagBuf, applyHit,
    isToolMode, beq_cons_cons, tThinkOpen, tThinkClose,
    tToolOpenPre, tToolClose, tParamOpenPre, tParamClose]

set_option maxHeartbeats 1000000 in
theorem feed_toolClose (ts : List Str) (id : Nat) (nm2 : Str) (acc : List (Str × Str))
    (nid : Nat) (st : Bool) (pos bp : Nat) (log : List (Nat × Event)) :
    feed ts ⟨.tool id nm2 acc, [], [], nid, st, false, pos, bp, log⟩ tToolClose
      = ⟨.plain, [], [], nid, st, false, pos + 12, pos + 12,
         log ++ [(pos, .toolCallEnd id nm2 acc (if nm2 ∈ ts then false else true))]⟩ := by
  simp only [feed, tToolClose, List.foldl_cons, List.foldl_nil]
  simp [step, scan, fixedScan, taggedScan, orScan, leadsTo, maxTagBuf, applyHit,
    isToolMode, beq_cons_cons, tThinkOpen, tThinkClose,
    tToolOpenPre, tToolClose, tParamOpenPre, tParamClose]

/-- Literal characters accumulate in the buffer in any mode whose direct
content is literal. -/
theorem feed_lit (ts : List Str) :
    ∀ (u : Str) (m : Mode) (buf : Str) (nid : Nat) (st : Bool) (pos bp : Nat)
      (log : List (Nat × Event)), isToolMode m = false → u.all notLt = true →
      feed ts ⟨m, buf, [], nid, st, false, pos, bp, log⟩ u
        = ⟨m, buf ++ u, [], nid, st, false, pos + u.length, bp, log⟩ := by
  intro u
  induction u with
  | nil =>
      intro m buf nid st pos bp log _ _
      rw [feed_nil]
      simp
  | cons c cs ih =>
      intro m buf nid st pos bp log hm hall
      rw [List.all_cons, Bool.and_eq_true] at hall
      have hc : (c == '<') = false := by
        have h1 := hall.1
        unfold notLt at h1
        simpa using h1
      rw [feed_cons, step_lit ts _ c rfl rfl hc hm]
      have hmid := ih m (buf ++ [c]) nid st (pos + 1) bp log hm hall.2
      rw [show ({ (⟨m, buf, [], nid, st, false, pos, bp, log⟩ : ScanState) with
            buf := buf ++ [c], pos := pos + 1 } : ScanState)
          = (⟨m, buf ++ [c], [], nid, st, false, pos + 1, bp, log⟩ : ScanState) from rfl]
      rw [hmid]
      have e1 : (buf ++ [c]) ++ cs = buf ++ c :: cs := by simp
      have e2 : pos + 1 + cs.length = pos + (c :: cs).length := by
        simp only [List.length_cons]
        omega
      rw [e1, e2]

/-- Name-token characters after the tool-call lead-in stay in the ambiguity
buffer. -/
theorem feed_name_plain (ts : List Str) :
    ∀ (nm done buf : Str) (nid : Nat) (st : Bool) (pos bp : Nat)
      (log : List (Nat × Event)),
      (done ++ nm).all nameOk = true → 11 + done.length + nm.length ≤ maxTagBuf →
      feed ts ⟨.plain, buf, tToolOpenPre ++ done, nid, st, false, pos, bp, log⟩ nm
        = ⟨.plain, buf, tToolOpenPre ++ (done ++ nm), nid, st, false,
           pos + nm.length, bp, log⟩ := by
  intro nm
  induction nm with
  | nil =>
      intro done buf nid st pos bp log _ _
      rw [feed_nil]
      simp
  | cons c cs ih =>
      intro done buf nid st pos bp log hall hlen
      have hall2 : ((done ++ [c]) ++ cs).all nameOk = true := by
        simpa [List.append_assoc] using hall
      have hdc : (done ++ [c]).all nameOk = true := by
        rw [List.all_append, Bool.and_eq_true] at hall2
        exact hall2.1
      have hsc : scan .plain ((tToolOpenPre ++ done) ++ [c]) = .more := by
        rw [List.append_assoc]
        exact scan_plain_toolpre (done ++ [c]) hdc
      have hlen2 : ¬ maxTagBuf < ((tToolOpenPre ++ done) ++ [c]).length := by
        simp only [List.length_append, List.length_cons, List.length_nil]
        have h11 : tToolOpenPre.length = 11 := rfl
        rw [h11]
        simp only [List.length_cons] at hlen
        omega
      rw [feed_cons, step_more ts _ c rfl (by rfl) hsc hlen2]
      have hmid := ih (done ++ [c]) buf nid st (pos + 1) bp log hall2
        (by simp only [List.length_append, List.length_cons, List.length_nil] at hlen ⊢; omega)
      rw [show ({ (⟨.plain, buf, tToolOpenPre ++ done, nid, st, false, pos, bp, log⟩ :
            ScanState) with
            tagBuf := (tToolOpenPre ++ done) ++ [c], pos := pos + 1 } : ScanState)
          = (⟨.plain, buf, tToolOpenPre ++ (done ++ [c]), nid, st, false,
             pos + 1, bp, log⟩ : ScanState) from by
        simp [ScanState.mk.injEq, List.append_assoc]]
      rw [hmid]
      have e1 : (done ++ [c]) ++ cs = done ++ c :: cs := by simp
      have e2 : pos + 1 + cs.length = pos + (c :: cs).length := by
        simp only [List.length_cons]
        omega
      rw [e1, e2]

/-- Name-token characters after the parameter lead-in stay in the ambiguity
buffer. -/
theorem feed_name_tool (ts : List Str) :
    ∀ (nm done : Str) (id : Nat) (nm2 : Str) (acc : List (Str × Str)) (nid : Nat)
      (st : Bool) (pos bp : Nat) (log : List (Nat × Event)),
      (done ++ nm).all nameOk = true → 7 + done.length + nm.length ≤ maxTagBuf →
      feed ts ⟨.tool id nm2 acc, [], tParamOpenPre ++ done, nid, st, false, pos, bp, log⟩ nm
        = ⟨.tool id nm2 acc, [], tParamOpenPre ++ (done ++ nm), nid, st, false,
           pos + nm.length, bp, log⟩ := by
  intro nm
  induction nm with
  | nil =>
      intro done id nm2 acc nid st pos bp log _ _
      rw [feed_nil]
      simp
  | cons c cs ih =>
      intro done id nm2 acc nid st pos bp log hall hlen
      have hall2 : ((done ++ [c]) ++ cs).all nameOk = true := by
        simpa [List.append_assoc] using hall
      have hdc : (done ++ [c]).all nameOk = true := by
        rw [List.all_append, Bool.and_eq_true] at hall2
        exact hall2.1
      have hsc : scan (.tool id nm2 acc) ((tParamOpenPre ++ done) ++ [c]) = .more := by
        rw [List.append_assoc]
        exact scan_tool_parampre id nm2 acc (done ++ [c]) hdc
      have hlen2 : ¬ maxTagBuf < ((tParamOpenPre ++ done) ++ [c]).length := by
        simp only [List.length_append, List.length_cons, List.length_nil]
        have h7 : tParamOpenPre.length = 7 := rfl
        rw [h7]
        simp only [List.length_cons] at hlen
        omega
      rw [feed_cons, step_more ts _ c rfl (by rfl) hsc hlen2]
      have hmid := ih (done ++ [c]) id nm2 acc nid st (pos + 1) bp log hall2
        (by simp only [List.length_append, List.length_cons, List.length_nil] at hlen ⊢; omega)
      rw [show ({ (⟨.tool id nm2 acc, [], tParamOpenPre ++ done, nid, st, false, pos, bp,
            log⟩ : ScanState) with
            tagBuf := (tParamOpenPre ++ done) ++ [c], pos := pos + 1 } : ScanState)
          = (⟨.tool id nm2 acc, [], tParamOpenPre ++ (done ++ [c]), nid, st, false,
             pos + 1, bp, log⟩ : ScanState) from by
        simp [ScanState.mk.injEq, List.append_assoc]]
      rw [hmid]
      have e1 : (done ++ [c]) ++ cs = done ++ c :: cs := by simp
      have e2 : pos + 1 + cs.length = pos + (c :: cs).length := by
        simp only [List.length_cons]
        omega
      rw [e1, e2]

/-- The closing angle after the tool name completes the tool-call open tag:
pending text is flushed and the start event is emitted. -/
theorem step_toolOpen_gt (ts : List Str) (nm buf : Str) (nid : Nat) (st : Bool)
    (pos bp : Nat) (log : List (Nat × Event)) (hnm : nm.all nameOk = true) :
    step ts ⟨.plain, buf, tToolOpenPre ++ nm, nid, st, false, pos, bp, log⟩ '>'
      = ⟨.tool nid nm [], [], [], nid + 1, true, false, pos + 1, pos + 1,
         log ++ flushLog bp buf
           ++ [(pos + 1 - ((tToolOpenPre ++ nm) ++ ['>']).length, .toolCallStart nid nm)]⟩ := by
  have hsc : scan .plain ((tToolOpenPre ++ nm) ++ ['>']) = .hit (.toolOpen nm) := by
    rw [List.append_assoc]
    exact scan_plain_toolhit nm hnm
  rw [step_hit ts _ '>' _ rfl (by rfl) hsc]
  rfl

/-- The closing angle after the parameter name completes the parameter open
tag. -/
theorem step_paramOpen_gt (ts : List Str) (id : Nat) (nm2 w : Str)
    (acc : List (Str × Str)) (nid : Nat) (st : Bool) (pos bp : Nat)
    (log : List (Nat × Event)) (hw : w.all nameOk = true) :
    step ts ⟨.tool id nm2 acc, [], tParamOpenPre ++ w, nid, st, false, pos, bp, log⟩ '>'
      = ⟨.param id nm2 acc w, [], [], nid, st, false, pos + 1, pos + 1, log⟩ := by
  have hsc : scan (.tool id nm2 acc) ((tParamOpenPre ++ w) ++ ['>']) = .hit (.paramOpen w) := by
    rw [List.append_assoc]
    exact scan_tool_paramhit id nm2 acc w hw
  rw [step_hit ts _ '>' _ rfl (by rfl) hsc]
  rfl

/-- The event sequence the argument-delta flushes of a parameter list
produce: one delta per parameter with non-empty text. -/
def argEvents (id : Nat) (args : List (Str × Str)) : List Event :=
  (args.map (fun pv => if pv.2.isEmpty then [] else [Event.toolCallArgDelta id pv.2])).flatten

theorem flushLog_map_snd (bp : Nat) (u : Str) :
    (flushLog bp u).map Prod.snd = if u.isEmpty then [] else [Event.textDelta u] := by
  unfold flushLog
  by_cases he : u.isEmpty <;> simp [he]

theorem argLog_map_snd (bp id : Nat) (u : Str) :
    (argLog bp id u).map Prod.snd = if u.isEmpty then [] else [Event.toolCallArgDelta id u] := by
  unfold argLog
  by_cases he : u.isEmpty <;> simp [he]

/-- Feeding one rendered parameter block from inside a tool call closes one
more parameter and flushes its argument delta. -/
theorem feed_one_param (ts : List Str) (id : Nat) (nm2 p v : Str) (acc : List (Str × Str))
    (nid : Nat) (st : Bool) (pos bp : Nat) (log : List (Nat × Event))
    (hp : p.all nameOk = true) (hplen : 7 + p.length ≤ maxTagBuf)
    (hv : v.all notLt = true) :
    ∃ pos2 bp2 q,
      feed ts ⟨.tool id nm2 acc, [], [], nid, st, false, pos, bp, log⟩ (renderParam p v)
        = ⟨.tool id nm2 (acc ++ [(p, v)]), [], [], nid, st, false, pos2, bp2,
           log ++ argLog q id v⟩ := by
  rw [renderParam, feed_append, feed_append, feed_append, feed_append]
  rw [feed_paramOpenPre]
  have hname := feed_name_tool ts p [] id nm2 acc nid st (pos + 7) bp log
    (by simpa using hp) (by simpa using hplen)
  simp only [List.append_nil, List.nil_append] at hname
  rw [hname]
  rw [show (['>'] : Str) = '>' :: [] from rfl, feed_cons, feed_nil]
  rw [step_paramOpen_gt ts id nm2 p acc nid st (pos + 7 + p.length) bp log hp]
  rw [feed_lit ts v (.param id nm2 acc p) [] nid st (pos + 7 + p.length + 1)
    (pos + 7 + p.length + 1) log rfl hv]
  simp only [List.nil_append]
  rw [feed_paramClose]
  exact ⟨_, _, _, rfl⟩

/-- Feeding a rendered parameter list from inside a tool call closes all the
parameters in order and flushes exactly their argument deltas. -/
theorem feed_args (ts : List Str) :
    ∀ (args : List (Str × Str)) (id : Nat) (nm2 : Str) (acc : List (Str × Str))
      (nid : Nat) (st : Bool) (pos bp : Nat) (log : List (Nat × Event)),
      (∀ pv ∈ args, pv.1.all nameOk = true ∧ 7 + pv.1.length ≤ maxTagBuf
        ∧ pv.2.all notLt = true) →
      ∃ pos2 bp2 new,
        feed ts ⟨.tool id nm2 acc, [], [], nid, st, false, pos, bp, log⟩ (renderArgs args)
          = ⟨.tool id nm2 (acc ++ args), [], [], nid, st, false, pos2, bp2, log ++ new⟩
        ∧ new.map Prod.snd = argEvents id args := by
  intro args
  induction args with
  | nil =>
      intro id nm2 acc nid st pos bp log _
      refine ⟨pos, bp, [], ?_, rfl⟩
      rw [show renderArgs [] = [] from rfl, feed_nil]
      simp
  | cons pv rest ih =>
      intro id nm2 acc nid st pos bp log hargs
      have hpv := hargs pv (List.mem_cons_self pv rest)
      have hrest : ∀ q ∈ rest, q.1.all nameOk = true ∧ 7 + q.1.length ≤ maxTagBuf
          ∧ q.2.all notLt = true :=
        fun q hq => hargs q (List.mem_cons_of_mem pv hq)
      have hra : renderArgs (pv :: rest) = renderParam pv.1 pv.2 ++ renderArgs rest := by
        simp [renderArgs]
      rw [hra, feed_append]
      obtain ⟨p2, b2, q, hone⟩ := feed_one_param ts id nm2 pv.1 pv.2 acc nid st pos bp log
        hpv.1 hpv.2.1 hpv.2.2
      rw [hone]
      obtain ⟨p3, b3, new2, hrec, hev⟩ := ih id nm2 (acc ++ [pv]) nid st p2 b2
        (log ++ argLog q id pv.2) hrest
      refine ⟨p3, b3, argLog q id pv.2 ++ new2, ?_, ?_⟩
      · rw [show (acc ++ [pv] : List (Str × Str)) = acc ++ [pv] from rfl] at hrec
        rw [hrec]
        simp [List.append_assoc]
      · rw [List.map_append, argLog_map_snd, hev]
        simp [argEvents]

/-! ## Unknown-tool run -/

/-- A syntactically well-formed, closed tool-call block (with plain text
around it) runs to completion: the session does not fail, the block's call is
closed with a `tool-call-end` carrying the `UnknownTool` marker exactly when
the name is undeclared, and the surrounding text is emitted normally. -/
theorem run_tool_block (ts : List Str) (nm lead trail : Str) (args : List (Str × Str))
    (hnm : nm.all nameOk = true) (hnmlen : 11 + nm.length ≤ maxTagBuf)
    (hargs : ∀ pv ∈ args, pv.1.all nameOk = true ∧ 7 + pv.1.length ≤ maxTagBuf
      ∧ pv.2.all notLt = true)
    (hlead : lead.all notLt = true) (htrail : trail.all notLt = true) :
    (runStr ts (lead ++ (renderToolBlock nm args ++ trail))).failed = false
    ∧ events (runStr ts (lead ++ (renderToolBlock nm args ++ trail)))
      = (if lead.isEmpty then [] else [Event.textDelta lead])
        ++ [Event.toolCallStart 0 nm] ++ argEvents 0 args
        ++ [Event.toolCallEnd 0 nm args (if nm ∈ ts then false else true)]
        ++ (if trail.isEmpty then [] else [Event.textDelta trail])
        ++ [Event.finish .toolCalls] := by
  obtain ⟨P, B, new, hfeed, hev⟩ :
      ∃ P B new, feed ts initState (lead ++ (renderToolBlock nm args ++ trail))
          = ⟨.plain, trail, [], 1, true, false, P, B, new⟩
        ∧ new.map Prod.snd
          = (if lead.isEmpty then [] else [Event.textDelta lead])
            ++ [Event.toolCallStart 0 nm] ++ argEvents 0 args
            ++ [Event.toolCallEnd 0 nm args (if nm ∈ ts then false else true)] := by
    rw [feed_append, feed_append]
    rw [show initState = (⟨.plain, [], [], 0, false, false, 0, 0, []⟩ : ScanState) from rfl]
    rw [feed_lit ts lead .plain [] 0 false 0 0 [] rfl hlead]
    simp only [List.nil_append, Nat.zero_add]
    unfold renderToolBlock
    rw [feed_append, feed_append, feed_append, feed_append]
    rw [feed_toolOpenPre]
    have hname := feed_name_plain ts nm [] lead 0 false (lead.length + 11) 0 []
      (by simpa using hnm) (by simpa using hnmlen)
    simp only [List.append_nil, List.nil_append] at hname
    rw [hname]
    rw [show (['>'] : Str) = '>' :: [] from rfl, feed_cons, feed_nil]
    obtain ⟨q0, hq0⟩ :
        ∃ q, step ts ⟨.plain, lead, tToolOpenPre ++ nm, 0, false, false,
            lead.length + 11 + nm.length, 0, []⟩ '>'
          = ⟨.tool 0 nm [], [], [], 1, true, false, lead.length + 11 + nm.length + 1,
             lead.length + 11 + nm.length + 1,
             flushLog 0 lead ++ [(q, .toolCallStart 0 nm)]⟩ := by
      refine ⟨lead.length + 11 + nm.length + 1
        - ((tToolOpenPre ++ nm) ++ ['>']).length, ?_⟩
      rw [step_toolOpen_gt ts nm lead 0 false (lead.length + 11 + nm.length) 0 [] hnm]
      simp
    rw [hq0]
    obtain ⟨p2, b2, new2, hargseq, hev2⟩ := feed_args ts args 0 nm [] 1 true
      (lead.length + 11 + nm.length + 1) (lead.length + 11 + nm.length + 1)
      (flushLog 0 lead ++ [(q0, .toolCallStart 0 nm)]) hargs
    simp only [List.nil_append] at hargseq
    rw [hargseq]
    rw [feed_toolClose]
    rw [feed_lit ts trail .plain _ _ _ _ _ _ rfl htrail]
    simp only [List.nil_append]
    refine ⟨p2 + 12 + trail.length, p2 + 12, _, rfl, ?_⟩
    simp only [List.map_append, flushLog_map_snd, hev2, List.map_cons, List.map_nil]
    try simp [List.append_assoc]
  have hrun : runStr ts (lead ++ (renderToolBlock nm args ++ trail))
      = ⟨.plain, [], [], 1, true, false, P, P,
         new ++ flushLog B trail ++ [(P, .finish .toolCalls)]⟩ := by
    unfold runStr
    rw [hfeed]
    rw [endSession]
    simp
  refine ⟨by rw [hrun], ?_⟩
  rw [hrun]
  unfold events
  simp only [List.map_append, flushLog_map_snd, hev, List.map_cons, List.map_nil]
  try simp [List.append_assoc]

/-! ## Claims -/

/-- Claim C1 (chunk invariance of the streaming parser): for every logical
input and every way of splitting it into consecutive arbitrary-length chunks
(including empty chunks), feeding the chunks to the parse session yields
exactly the same event sequence as feeding the unsplit string. -/
theorem chunk_invariance (ts : List Str) (chunks : List Str) :
    events (runChunks ts chunks) = events (runStr ts chunks.flatten) := by
  unfold runChunks runStr feedAll
  rw [feed_join]

/-- Claim C2 (round-trip reconstruction): for every input stream that parses
without error, concatenating all text-delta and thinking-delta payloads in
emission order, with the recognized tool-call and thinking tag markers
re-inserted at their original positions (`renderEvents`), reconstructs the
original input byte for byte. -/
theorem round_trip (ts : List Str) (input : Str)
    (hok : (runStr ts input).failed = false) :
    renderEvents (runStr ts input) = input := by
  unfold runStr at hok ⊢
  obtain ⟨hff, hfm⟩ := endSession_failed_of _ hok
  have hfr := feed_render ts input initState hff
  have hpend : pending (feed ts initState input)
      = (feed ts initState input).buf ++ (feed ts initState input).tagBuf := by
    rw [pending, hfm]
  rw [hpend] at hfr
  have hinit : renderLog initState.log ++ pending initState = [] := by
    simp [initState, renderLog, pending]
  rw [hinit] at hfr
  rw [renderEvents_eq, endSession_plain _ hff hfm]
  simp only [renderLog_append, renderLog_flushLog, renderLog_single, renderEvent]
  simpa using hfr

set_option maxRecDepth 100000 in
/-- Witness for C2: a concrete input mixing plain text, a thinking block and
a closed tool call parses without error and reconstructs byte for byte. -/
theorem round_trip_witness :
    (runStr [] "a<thinking>b</thinking><tool_call:f><param:x>1</param></tool_call>c".toList).failed
        = false
      ∧ renderEvents
          (runStr [] "a<thinking>b</thinking><tool_call:f><param:x>1</param></tool_call>c".toList)
        = "a<thinking>b</thinking><tool_call:f><param:x>1</param></tool_call>c".toList :=
  ⟨by decide, round_trip [] _ (by decide)⟩

/-- Claim C3 (emission order follows logical content order): each log entry
records the scan position of the content its event derives from, and for
every parse session — however the input is chunked — the emitted sequence is
sorted by those positions: an event derived from earlier content is emitted
before one derived from later content, even when classifying the later event
required consuming chunks that arrived after the chunk containing the earlier
event's final character. -/
theorem emission_order (ts : List Str) (chunks : List Str) :
    (runChunks ts chunks).log.Pairwise posLe := by
  have hfa : posInv (feedAll ts chunks) := by
    unfold feedAll
    rw [feed_join]
    exact posInv_feed ts chunks.flatten initState posInv_init
  exact (posInv_endSession _ hfa).2.2.2

/-- Claim C4 (exactly one terminal pair on parse failure): whenever a parse
fails (malformed or unterminated tag, stray content inside a tool-call
container, or scanner buffer-limit failure), the event sequence is a prefix
containing no terminal event, followed by exactly one `error` event
immediately followed by one `finish{reason:"error"}`, and then ends; and
when a tool call is still open at end of stream, no `tool-call-end` event for
the unterminated call is ever emitted.  (The parser is a total function, so
no exception can escape its boundary.) -/
theorem error_terminal_pair (ts : List Str) (input : Str)
    (hfail : (runStr ts input).failed = true) :
    (∃ preE m, events (runStr ts input) = preE ++ [Event.error m, Event.finish .err]
        ∧ ∀ e ∈ preE, notTerm e = true)
    ∧ ∀ id, mOpen (feed ts initState input).mode = some id →
        ∀ nm args unk, Event.toolCallEnd id nm args unk ∉ events (runStr ts input) := by
  have hterm : termInv (feed ts initState input) := termInv_feed ts input initState termInv_init
  have hid : idInv (feed ts initState input) := idInv_feed ts input initState (idInvT_init 0)
  constructor
  · by_cases h0 : (feed ts initState input).failed = true
    · have hrun : runStr ts input = feed ts initState input := by
        rw [runStr, endSession_frozen _ h0]
      obtain ⟨pre, m, p, q, hlog, hclean⟩ := hterm.2 h0
      refine ⟨pre.map Prod.snd, m, ?_, ?_⟩
      · rw [hrun]
        unfold events
        rw [hlog]
        simp
      · intro e he
        obtain ⟨qe, hqe, rfl⟩ := List.mem_map.mp he
        exact hclean qe hqe
    · have h0f : (feed ts initState input).failed = false := by
        cases hx : (feed ts initState input).failed with
        | false => rfl
        | true => exact absurd hx h0
      by_cases hm : (feed ts initState input).mode = .plain
      · exfalso
        rw [runStr, endSession_plain _ h0f hm] at hfail
        simp [h0f] at hfail
      · rw [runStr, endSession_unterminated _ h0f hm]
        refine ⟨(feed ts initState input).log.map Prod.snd, .unterminated, ?_, ?_⟩
        · unfold events
          simp
        · intro e he
          obtain ⟨qe, hqe, rfl⟩ := List.mem_map.mp he
          exact hterm.1 h0f qe hqe
  · intro id hopen nm args unk hmem
    have hid2 : idInv (endSession (feed ts initState input)) := idInv_endSession _ hid
    unfold idInv at hid2
    have hopen2 : mOpen (endSession (feed ts initState input)).mode = some id := by
      rw [endSession_mode]; exact hopen
    have hnoend := (hid2.1 id hopen2).2.2
    rw [runStr] at hmem
    obtain ⟨qe, hqe, hqe2⟩ := List.mem_map.mp hmem
    have hE : isEnd id qe.2 = true := by rw [hqe2]; simp [isEnd]
    rw [hnoend qe hqe] at hE
    exact Bool.noConfusion hE

set_option maxRecDepth 100000 in
/-- Witness for C4: a tool-call tag left unterminated at end of stream fails,
yielding the start event, then exactly the `error` + `finish{"error"}` pair,
and no `tool-call-end` for the open call. -/
theorem error_terminal_pair_witness :
    (runStr [] "<tool_call:f>".toList).failed = true
      ∧ ((∃ preE m,
            events (runStr [] "<tool_call:f>".toList)
              = preE ++ [Event.error m, Event.finish .err]
            ∧ ∀ e ∈ preE, notTerm e = true)
          ∧ ∀ id, mOpen (feed [] initState "<tool_call:f>".toList).mode = some id →
              ∀ nm args unk,
                Event.toolCallEnd id nm args unk ∉ events (runStr [] "<tool_call:f>".toList)) :=
  ⟨by decide, error_terminal_pair [] _ (by decide)⟩

/-- Claim C5 (tool-call id bracketing): in every parse session, every
`tool-call-argument-delta` carrying an id is emitted strictly between that
id's `tool-call-start` and its `tool-call-end` (a start occurs earlier, and
no end for that id occurs earlier), and no event referencing an id is ever
emitted after that id's `tool-call-end`. -/
theorem tool_call_bracketing (ts : List Str) (chunks : List Str) :
    (∀ id t u v, events (runChunks ts chunks) = u ++ Event.toolCallArgDelta id t :: v →
        (∃ nm, Event.toolCallStart id nm ∈ u)
          ∧ ∀ nm args unk, Event.toolCallEnd id nm args unk ∉ u)
    ∧ ∀ id nm args unk u v,
        events (runChunks ts chunks) = u ++ Event.toolCallEnd id nm args unk :: v →
        ∀ e ∈ v, refs id e = false := by
  have hid : idInv (runChunks ts chunks) := by
    rw [runChunks]
    refine idInv_endSession _ ?_
    unfold feedAll
    rw [feed_join]
    exact idInv_feed ts chunks.flatten initState (idInvT_init 0)
  unfold idInv at hid
  obtain ⟨h1, h2, h3, h4, h5⟩ := hid
  constructor
  · intro id t u v hsplit
    unfold events at hsplit
    obtain ⟨u', x', v', hl, hu, hx, hv⟩ := map_split Prod.snd _ u _ v hsplit
    have hdel : isDelta id x'.2 = true := by rw [hx]; simp [isDelta]
    obtain ⟨⟨qe, hqe, hst⟩, hnoend⟩ := h4 id u' v' x'.1 x'.2 hl hdel
    constructor
    · obtain ⟨nm, hnm⟩ := isStart_elim hst
      refine ⟨nm, ?_⟩
      rw [← hu, ← hnm]
      exact List.mem_map_of_mem Prod.snd hqe
    · intro nm args unk hmem
      rw [← hu] at hmem
      obtain ⟨qe2, hqe2, hqe22⟩ := List.mem_map.mp hmem
      have hE : isEnd id qe2.2 = true := by rw [hqe22]; simp [isEnd]
      rw [hnoend qe2 hqe2] at hE
      exact Bool.noConfusion hE
  · intro id nm args unk u v hsplit e he
    unfold events at hsplit
    obtain ⟨u', x', v', hl, hu, hx, hv⟩ := map_split Prod.snd _ u _ v hsplit
    have hend : isEnd id x'.2 = true := by rw [hx]; simp [isEnd]
    have hclean := h2 id u' v' x'.1 x'.2 hl hend
    rw [← hv] at he
    obtain ⟨qe, hqe, rfl⟩ := List.mem_map.mp he
    exact hclean qe hqe

/-- Claim C6 (UnknownTool is non-fatal): for every input containing a
syntactically well-formed, closed tool-call block whose tool name is not in
the session's declared tool set, the parser still emits a `tool-call-end`
event for that call carrying the `UnknownTool` marker, the session does not
terminate with an error, and plain text following the block is still emitted
normally as a `text-delta`. -/
theorem unknown_tool_nonfatal (ts : List Str) (nm lead trail : Str)
    (args : List (Str × Str))
    (hnm : nm.all nameOk = true) (hnmlen : 11 + nm.length ≤ maxTagBuf)
    (hargs : ∀ pv ∈ args, pv.1.all nameOk = true ∧ 7 + pv.1.length ≤ maxTagBuf
      ∧ pv.2.all notLt = true)
    (hlead : lead.all notLt = true) (htrail : trail.all notLt = true)
    (hunk : nm ∉ ts) :
    (runStr ts (lead ++ (renderToolBlock nm args ++ trail))).failed = false
    ∧ events (runStr ts (lead ++ (renderToolBlock nm args ++ trail)))
      = (if lead.isEmpty then [] else [Event.textDelta lead])
        ++ [Event.toolCallStart 0 nm] ++ argEvents 0 args
        ++ [Event.toolCallEnd 0 nm args true]
        ++ (if trail.isEmpty then [] else [Event.textDelta trail])
        ++ [Event.finish .toolCalls] := by
  obtain ⟨h1, h2⟩ := run_tool_block ts nm lead trail args hnm hnmlen hargs hlead htrail
  refine ⟨h1, ?_⟩
  rw [h2]
  simp [hunk]

set_option maxRecDepth 400000 in
/-- Witness for C6: a closed tool-call block naming the undeclared tool
`doUnknownThing` (while only `getWeather` is declared) still yields its
`tool-call-end` with the `UnknownTool` marker, the session finishes without
error, and the plain text after the block is emitted as a `text-delta`. -/
theorem unknown_tool_nonfatal_witness :
    ("doUnknownThing".toList ∉ ["getWeather".toList])
    ∧ (runStr ["getWeather".toList]
        ("Hi ".toList ++ (renderToolBlock "doUnknownThing".toList
          [("city".toList, "Tokyo".toList)] ++ " ok".toList))).failed = false
    ∧ events (runStr ["getWeather".toList]
        ("Hi ".toList ++ (renderToolBlock "doUnknownThing".toList
          [("city".toList, "Tokyo".toList)] ++ " ok".toList)))
      = (if ("Hi ".toList : Str).isEmpty then [] else [Event.textDelta "Hi ".toList])
        ++ [Event.toolCallStart 0 "doUnknownThing".toList]
        ++ argEvents 0 [("city".toList, "Tokyo".toList)]
        ++ [Event.toolCallEnd 0 "doUnknownThing".toList
            [("city".toList, "Tokyo".toList)] true]
        ++ (if (" ok".toList : Str).isEmpty then [] else [Event.textDelta " ok".toList])
        ++ [Event.finish .toolCalls] :=
  ⟨by decide,
   (unknown_tool_nonfatal ["getWeather".toList] "doUnknownThing".toList "Hi ".toList
     " ok".toList [("city".toList, "Tokyo".toList)] (by decide) (by decide) (by decide)
     (by decide) (by decide) (by decide)).1,
   (unknown_tool_nonfatal ["getWeather".toList] "doUnknownThing".toList "Hi ".toList
     " ok".toList [("city".toList, "Tokyo".toList)] (by decide) (by decide) (by decide)
     (by decide) (by decide) (by decide)).2⟩

/-- Claim C7 (concrete thinking-block scenario): the input
`"Hello <thinking>step one</thinking> world"` delivered as the three chunks
`"Hello <th"`, `"inking>step o"`, `"ne</thinking> world"` yields exactly
`text-delta("Hello ")`, `thinking-delta("step one")`, `text-delta(" world")`,
`finish(stop)`, with the thinking tag split across chunk boundaries correctly
classified. -/
theorem thinking_chunk_scenario :
    events (runChunks []
      ["Hello <th".toList, "inking>step o".toList, "ne</thinking> world".toList])
      = [.textDelta "Hello ".toList, .thinkingDelta "step one".toList,
         .textDelta " world".toList, .finish .stop] := by
  decide

/-- Claim C8: calling `claudeCode` with the `modelId` argument omitted
constructs a model whose `modelId` is `'sonnet'`, for every (possibly absent)
settings value; `claudeCode()` is extensionally equal to
`claudeCode('sonnet')`. -/
theorem claudeCode_default_sonnet (settings : Option ClaudeCodeSettings) :
    claudeCode none settings = claudeCode (some .sonnet) settings
      ∧ (claudeCode none settings).config.modelId = .sonnet := by
  exact ⟨rfl, rfl⟩

/-- Claim C9: the exported `provider` is the very same function as
`claudeCode`; for every model id and settings they return models built from
identical configurations. -/
theorem provider_is_claudeCode :
    provider = claudeCode
      ∧ ∀ (m : Option ClaudeCodeModelId) (s : Option ClaudeCodeSettings),
          (provider m s).config = (claudeCode m s).config := by
  exact ⟨rfl, fun _ _ => rfl⟩

/-- Claim C10: `claudeCode` performs no validation: for every model id and
settings object, the `maxThinkingTokens` value (including values passed with
non-opus models, zero, or negative numbers) is forwarded unchanged into the
constructed model's configuration; the factory is a total function and never
clamps the value. -/
theorem claudeCode_forwards_maxThinkingTokens (m : ClaudeCodeModelId) (st : ClaudeCodeSettings) :
    (claudeCode (some m) (some st)).config.maxThinkingTokens = st.maxThinkingTokens
      ∧ (claudeCode (some m) (some st)).config.modelId = m
      ∧ (claudeCode (some m) none).config.maxThinkingTokens = none := by
  exact ⟨rfl, rfl, rfl⟩

end CC
